import Mathlib

/-!
Verification development for the pystonks market time-series processing and
signal-annotator core (`pystonks/utils/processing.py`,
`pystonks/supervised/annotations/utils/metrics.py`,
`pystonks/supervised/annotations/utils/annotations/{inflection,macd}.py`).

Modelling conventions:
* Python floats are modelled as exact rationals (`ℚ`); float rounding is
  abstracted away, the claims under study are about the algebra of the code.
* Naive `datetime` values are modelled as integer seconds since an epoch;
  `datetime.date()` is then the floor-quotient by 86400 and the
  seconds-since-midnight offset is the nonnegative remainder, matching the
  source's `truncate_datetime` / `datetime_to_second_offset`.
* Fallible Python operations that a claim depends on (dictionary lookup, list
  indexing with `IndexError`, division with `ZeroDivisionError`, `raise`) are
  modelled in the `Except String` monad.  Pure numeric helpers whose
  out-of-range behaviour no claim touches use total indexing (`getD`); the
  theorems about them carry explicit length hypotheses keeping every access in
  range, where Python and the model agree.
-/

deriving instance DecidableEq for Except

/-- Python `l[-d:]` for a nonnegative `d`: the last `d` elements, the whole
list when `d = 0` (since `l[-0:] = l[0:]`) or when `d ≥ len(l)`. -/
def pyNegSlice (l : List α) (d : ℕ) : List α :=
  if d = 0 then l else l.drop (l.length - d)

/-- Python division: `ZeroDivisionError` on a zero denominator. -/
def pydiv (a b : ℚ) : Except String ℚ :=
  if b = 0 then Except.error "ZeroDivisionError" else Except.ok (a / b)

/-- Python list indexing `l[i]` with an `int` index: negative indices count
from the end, anything out of range raises `IndexError`. -/
def pyIndex (l : List α) (i : ℤ) : Except String α :=
  let j := if i < 0 then i + l.length else i
  if h : 0 ≤ j ∧ j < l.length then
    Except.ok (l.get ⟨j.toNat, by omega⟩)
  else
    Except.error "IndexError"

/-- Python `min` over a nonempty list (`0` on `[]`, a case `min` raises on and
no caller below reaches). -/
def pymin : List ℚ → ℚ
  | [] => 0
  | x :: xs => xs.foldl min x

/-- Python `max` over a nonempty list (`0` on `[]`, unreachable below). -/
def pymax : List ℚ → ℚ
  | [] => 0
  | x :: xs => xs.foldl max x

/-- `pystonks.models.Bar`: one candlestick.  Constructor argument order in the
source is `(symbol, timestamp, open, close, high, low, volume)`. -/
structure Bar where
  symbol : String
  timestamp : ℤ
  «open» : ℚ
  close : ℚ
  high : ℚ
  low : ℚ
  volume : ℤ
  deriving DecidableEq, Repr

/-- `pystonks.models.Trade`: one trade execution. -/
structure Trade where
  symbol : String
  timestamp : ℤ
  exchange : String
  count : ℤ
  price : ℚ
  deriving DecidableEq, Repr

/-- `pystonks.supervised.annotations.models.TradeActions`. -/
inductive TradeActions where
  | HOLD
  | BUY_HALF
  | BUY_ALL
  | SELL_HALF
  | SELL_ALL
  deriving DecidableEq, Repr

/-- `truncate_datetime`: reset the time of day to midnight. -/
def truncate_datetime (t : ℤ) : ℤ := t - t % 86400

/-- `datetime_to_second_offset`: seconds elapsed since midnight. -/
def datetime_to_second_offset (t : ℤ) : ℤ := t % 86400

/-- `datetime.date()` as a day index (used for the `>= today` comparison in
`process_interval`). -/
def date_of (t : ℤ) : ℤ := t / 86400

/-- The spec's `nearest_bucket_start(offset, w) = offset - (offset mod w)`,
appearing inline in `fill_in_sparse_bars` and `find_bars`. -/
def nearest_bucket (offset delta : ℤ) : ℤ := offset - offset % delta

/-- One cache-orchestration side effect of `process_interval`, recorded in
order of occurrence. -/
inductive CacheEvent (α : Type) where
  | check (day : ℤ)
  | load (day : ℤ)
  | fetch (day : ℤ)
  | save (day : ℤ) (data : α)
  deriving DecidableEq, Repr

/-- The `while` loop of `process_interval`: steps one day (86400 s) at a time,
continuing while `current < stop` (exclusive end) or `current <= stop`
(inclusive end); each day is served by `load` on a cache hit, else by `fetch`
followed by `save`.  Returns the collated per-day results and the event
trace. -/
def process_interval_loop (fetch load : ℤ → α) (check : ℤ → Bool)
    (exclusive_end : Bool) (stop current : ℤ) :
    List α × List (CacheEvent α) :=
  if h : (current < stop ∧ exclusive_end = true) ∨
      (current ≤ stop ∧ exclusive_end = false) then
    let step : α × List (CacheEvent α) :=
      if check current then
        (load current, [CacheEvent.check current, CacheEvent.load current])
      else
        (fetch current,
          [CacheEvent.check current, CacheEvent.fetch current,
            CacheEvent.save current (fetch current)])
    let rest := process_interval_loop fetch load check exclusive_end stop
      (current + 86400)
    (step.1 :: rest.1, step.2 ++ rest.2)
  else
    ([], [])
termination_by (stop + 86400 - current).toNat
decreasing_by
  rcases h with h | h <;> cases h <;> omega

/-- `process_interval(start, duration, fetch, load, check, save,
exclusive_end)`.  `today` is the day index of `dt.date.today()`.  The result
is the collated list (or the raised exception) paired with the trace of
handler invocations. -/
def process_interval (today : ℤ) (start duration : ℤ) (fetch load : ℤ → α)
    (check : ℤ → Bool) (exclusive_end : Bool) :
    Except String (List α) × List (CacheEvent α) :=
  let stop := start + duration
  if date_of stop ≥ today ∧ exclusive_end = false then
    (Except.error "invalid interval, end date is >= today", [])
  else
    let r := process_interval_loop fetch load check exclusive_end stop start
    (Except.ok r.1, r.2)

/-- The day-continuation test of the `process_interval` loop: strict for an
exclusive end, non-strict for an inclusive one. -/
def interval_day_cond (exclusive_end : Bool) (stop d : ℤ) : Prop :=
  if exclusive_end then d < stop else d ≤ stop

instance (e : Bool) (s d : ℤ) : Decidable (interval_day_cond e s d) := by
  unfold interval_day_cond
  infer_instance

/-- `create_continuous_sma(previous_bars, times, bars, window)`: one output
per input value; for a 1-based index `i < window` the sample is
`previous_bars[-(window-(i-1)):] + bars[:i]`, otherwise `bars[i-window:i]`;
each output is `sum(s)/len(s)`. -/
def create_continuous_sma (previous_bars times bars : List ℚ) (window : ℕ) :
    List ℚ × List ℚ :=
  if previous_bars.length + bars.length < window then ([], [])
  else
    ((List.range bars.length).map (fun j => times.getD j 0),
      (List.range bars.length).map (fun j =>
        let i := j + 1
        let s := if i < window then
            pyNegSlice previous_bars (window - (i - 1)) ++ bars.take i
          else
            (bars.drop (i - window)).take window
        s.sum / (s.length : ℚ)))

/-- The EMA recurrence `ema(previous, current) = current * k + previous *
(1 - k)` iterated along a list, emitting each intermediate value (the body of
the `for` loops of `create_ema` / `create_continuous_ema`). -/
def ema_scan (k : ℚ) (previous : ℚ) : List ℚ → List ℚ
  | [] => []
  | b :: rest =>
    let current := b * k + previous * (1 - k)
    current :: ema_scan k current rest

/-- `create_continuous_ema(previous_bars, times, bars, window, smoothing)`:
seeds from the SMA of the last `window` values available across
`previous_bars + bars` (consuming the first `offset = window -
len(previous_bars)` current values when the tail is short), then iterates the
EMA recurrence with `k = smoothing / (1 + window)` from index `offset`. -/
def create_continuous_ema (previous_bars times bars : List ℚ) (window : ℕ)
    (smoothing : ℚ) : List ℚ × List ℚ :=
  if previous_bars.length + bars.length < window then ([], [])
  else
    let offset : ℕ :=
      if previous_bars.length < window then window - previous_bars.length
      else 0
    let previous_ema : ℚ :=
      if previous_bars.length < window then
        (previous_bars ++ bars.take (window - previous_bars.length)).sum /
          (window : ℚ)
      else
        (pyNegSlice previous_bars window).sum / (window : ℚ)
    if offset ≥ bars.length then ([], [])
    else
      let k := smoothing / (1 + (window : ℚ))
      (((List.range bars.length).drop offset).map (fun i => times.getD i 0),
        ema_scan k previous_ema (bars.drop offset))

/-- `create_ema(times, bars, window, smoothing)`: seeds from the SMA of the
first `window` values and iterates the EMA recurrence from index `window`. -/
def create_ema (times bars : List ℚ) (window : ℕ) (smoothing : ℚ) :
    List ℚ × List ℚ :=
  if bars.length < window then ([], [])
  else if 0 ≥ bars.length then ([], [])
  else
    let previous_ema : ℚ := (bars.take window).sum / (window : ℚ)
    let k := smoothing / (1 + (window : ℚ))
    (((List.range bars.length).drop window).map (fun i => times.getD i 0),
      ema_scan k previous_ema (bars.drop window))

/-- `calculate_derivatives(times, data)`: discrete first and second
derivatives (lengths `n-1` and `n-2`). -/
def calculate_derivatives (times data : List ℚ) : List ℚ × List ℚ :=
  ((List.range (data.length - 1)).map (fun j =>
      let i := j + 1
      (data.getD i 0 - data.getD (i - 1) 0) /
        (times.getD i 0 - times.getD (i - 1) 0)),
    (List.range (data.length - 1 - 1)).map (fun j =>
      let i := j + 1
      (data.getD (i + 1) 0 - 2 * data.getD i 0 + data.getD (i - 1) 0) /
        ((times.getD (i + 1) 0 - times.getD i 0) *
          (times.getD (i + 1) 0 - times.getD i 0))))

/-- `normalize_bipolar(data)`: on a non-degenerate series divides positive
entries by the max and maps the rest to `-(d / min)`; a degenerate series
(`max = min`) becomes all zeros.  Division by zero (Python
`ZeroDivisionError`) is surfaced as an error. -/
def normalize_bipolar (data : List ℚ) : Except String (List ℚ) :=
  if data.length = 0 then Except.ok []
  else
    let mn := pymin data
    let mx := pymax data
    if mx ≠ mn then
      data.mapM (fun d =>
        if d > 0 then pydiv d mx else (pydiv d mn).map (fun q => -q))
    else
      Except.ok (List.replicate data.length 0)

/-- `calculate_normalized_derivatives(times, data)`. -/
def calculate_normalized_derivatives (times data : List ℚ) :
    Except String (List ℚ × List ℚ) := do
  let d := calculate_derivatives times data
  let n1 ← normalize_bipolar d.1
  let n2 ← normalize_bipolar d.2
  return (n1, n2)

/-- The inner `while sts > nts` loop of `fill_in_sparse_bars`: one filler bar
(previous close carried into all four prices, volume 0) per skipped bucket,
timestamped at the running bucket instant `bts`.  Terminates because the
bucket width is positive. -/
def fill_gap_loop (delta : ℤ) (hd : 0 < delta) (symbol : String)
    (prevClose : ℚ) (sts : ℤ) (nts bts : ℤ) : List Bar × ℤ × ℤ :=
  if hgt : sts > nts then
    let rest := fill_gap_loop delta hd symbol prevClose sts (nts + delta)
      (bts + delta)
    (⟨symbol, bts, prevClose, prevClose, prevClose, prevClose, 0⟩ :: rest.1,
      rest.2)
  else
    ([], nts, bts)
termination_by (sts - nts).toNat
decreasing_by omega

/-- The `for b in bars` loop of `fill_in_sparse_bars`: emit fillers for the
buckets the next real bar skips, then the real bar itself (with its own
timestamp), advancing the bucket counters once per emitted bar.  Returns the
emitted bars together with the final `(nts, bts, previous)`. -/
def fill_main_loop (delta : ℤ) (hd : 0 < delta) (symbol : String) :
    List Bar → ℤ → ℤ → Bar → List Bar × ℤ × ℤ × Bar
  | [], nts, bts, previous => ([], nts, bts, previous)
  | b :: rest, nts, bts, previous =>
    let sts := datetime_to_second_offset b.timestamp
    let g := fill_gap_loop delta hd symbol previous.close sts nts bts
    let r := fill_main_loop delta hd symbol rest (g.2.1 + delta)
      (g.2.2 + delta) b
    (g.1 ++ b :: r.1, r.2)

/-- The trailing `while bts < stop` loop of `fill_in_sparse_bars`: fillers
carrying the last known close until the stop instant is reached. -/
def fill_tail_loop (delta : ℤ) (hd : 0 < delta) (symbol : String) (stop : ℤ)
    (prevClose : ℚ) (bts : ℤ) : List Bar :=
  if hlt : bts < stop then
    ⟨symbol, bts, prevClose, prevClose, prevClose, prevClose, 0⟩ ::
      fill_tail_loop delta hd symbol stop prevClose (bts + delta)
  else
    []
termination_by (stop - bts).toNat
decreasing_by omega

/-- `fill_in_sparse_bars(start, stop, delta, bars)`: sort the bars, anchor the
bucket grid at the bucket containing `start` (fillers are timestamped at the
bucket-end instant `date + nts`), walk the sorted bars emitting fillers for
skipped buckets, then fill until `stop`.  The positivity witness for `delta`
is required for termination; Python loops forever on a non-positive width. -/
def fill_in_sparse_bars (start stop delta : ℤ) (hd : 0 < delta)
    (bars : List Bar) : List Bar :=
  match bars with
  | [] => []
  | b0 :: _ =>
    let sbars := bars.insertionSort (fun a b => a.timestamp ≤ b.timestamp)
    let symbol := (sbars.headD b0).symbol
    let date := truncate_datetime start
    let init := start
    let sinit := datetime_to_second_offset init
    let nearest := sinit - sinit % delta
    let nts := nearest + delta
    let bts := date + nts
    let m := fill_main_loop delta hd symbol sbars nts bts
      ⟨symbol, init, 0, 0, 0, 0, 0⟩
    m.1 ++ fill_tail_loop delta hd symbol stop m.2.2.2.close m.2.2.1

/-- The mutable locals of the `find_bars` trade loop: current bucket
boundaries and the open/close/low/high/volume/count accumulators. -/
structure FindBarsState where
  start : ℤ
  nts : ℤ
  o : ℚ
  c : ℚ
  l : ℚ
  h : ℚ
  v : ℤ
  ct : ℕ
  first : Bool
  deriving Repr

/-- The inner `while sts > nts` loop of `find_bars`: one tradeless filler bar
(all four prices the running close `c`, volume 0) per empty bucket,
timestamped at the bucket start `date + start`.  Returns the fillers and the
final `(start, nts)`. -/
def find_gap_loop (delta : ℤ) (hd : 0 < delta) (symbol : String) (date : ℤ)
    (c : ℚ) (sts : ℤ) (start nts : ℤ) : List Bar × ℤ × ℤ :=
  if hgt : sts > nts then
    let rest := find_gap_loop delta hd symbol date c sts nts (nts + delta)
    (⟨symbol, date + start, c, c, c, c, 0⟩ :: rest.1, rest.2)
  else
    ([], start, nts)
termination_by (sts - nts).toNat
decreasing_by omega

/-- The `for t in trades` loop of `find_bars` plus the final `if ct > 0`
flush: a trade with offset `<=` the current bucket end accumulates into the
open/close/high/low/volume; a later trade flushes the bucket as a `Bar`
(timestamped at the bucket start), emits fillers for skipped buckets and
starts a fresh accumulation. -/
def find_bars_loop (delta : ℤ) (hd : 0 < delta) (symbol : String) (date : ℤ) :
    List Trade → FindBarsState → List Bar → List Bar
  | [], st, res =>
    if st.ct > 0 then
      res ++ [⟨symbol, date + st.start, st.o, st.c, st.h, st.l, st.v⟩]
    else res
  | t :: rest, st, res =>
    let p := t.price
    let sts := datetime_to_second_offset t.timestamp
    if sts ≤ st.nts then
      let o := if st.first then p else st.o
      let l0 := if st.first then p else st.l
      let h0 := if st.first then p else st.h
      let l1 := if p < l0 then p else l0
      let h1 := if p > h0 then p else h0
      find_bars_loop delta hd symbol date rest
        { st with
          o := o
          l := l1
          h := h1
          c := p
          v := st.v + t.count
          ct := st.ct + 1
          first := false } res
    else
      let flushed := res ++
        [⟨symbol, date + st.start, st.o, st.c, st.h, st.l, st.v⟩]
      let g := find_gap_loop delta hd symbol date st.c sts st.nts
        (st.nts + delta)
      find_bars_loop delta hd symbol date rest
        { start := g.2.1
          nts := g.2.2
          o := p
          c := p
          l := p
          h := p
          v := t.count
          ct := 1
          first := st.first } (flushed ++ g.1)

/-- `find_bars(delta, trades)`: sort the trades, anchor the bucket grid at the
bucket of the first trade's second offset, and aggregate.  The positivity
witness for `delta` is required for termination. -/
def find_bars (delta : ℤ) (hd : 0 < delta) (trades : List Trade) :
    List Bar :=
  match trades with
  | [] => []
  | t0 :: _ =>
    let straded := trades.insertionSort (fun a b => a.timestamp ≤ b.timestamp)
    let tfirst := straded.headD t0
    let symbol := tfirst.symbol
    let date := truncate_datetime tfirst.timestamp
    let sinit := datetime_to_second_offset tfirst.timestamp
    let nearest := sinit - sinit % delta
    find_bars_loop delta hd symbol date straded
      { start := nearest
        nts := nearest + delta
        o := 0
        c := 0
        l := 0
        h := 0
        v := 0
        ct := 0
        first := true } []

instance : Inhabited Bar := ⟨⟨"", 0, 0, 0, 0, 0, 0⟩⟩

instance : Inhabited Trade := ⟨⟨"", 0, "", 0, 0⟩⟩

/-- Bar `k` of a synthesized bar list is a tradeless filler carrying the
previous bar's close: all four prices equal bar `k-1`'s close and the volume
is zero. -/
def filler_carry (res : List Bar) (k : ℕ) : Prop :=
  (res.getD k default).«open» = (res.getD (k - 1) default).close ∧
  (res.getD k default).close = (res.getD (k - 1) default).close ∧
  (res.getD k default).high = (res.getD (k - 1) default).close ∧
  (res.getD k default).low = (res.getD (k - 1) default).close ∧
  (res.getD k default).volume = 0

/-- The second offset of a trade's timestamp (the `sts` of the `find_bars`
loop). -/
def trade_off (t : Trade) : ℤ := datetime_to_second_offset t.timestamp

/-- The second offset of the last element of `ts`, or `lastOff` when `ts` is
empty. -/
def lastOffAcc (lastOff : ℤ) (ts : List Trade) : ℤ :=
  ts.foldl (fun _ t => trade_off t) lastOff

/-- The concrete `StockMetric` subclasses an annotator distinguishes with
`isinstance` checks. -/
inductive MetricKind where
  | sma
  | ema
  | macd
  | signal
  deriving DecidableEq, Repr

/-- The state of one `StockMetric` object as an annotator sees it: subclass
tag, the `module.window` / `module.smoothing` configuration, the cached
`result` series and the cached derivative arrays.  The annotator claims
concern maps of precomputed indicators, so the series are carried as data; a
metric whose `result` is unset maps to `get_data`'s no-data error path (the
subclass-specific recomputation from raw bar data is not exercised by any
claim below). -/
structure StockMetric where
  kind : MetricKind
  window : ℕ
  smoothing : ℚ
  result : Option (List ℚ × List ℚ)
  first_derivative : Option (List ℚ)
  second_derivative : Option (List ℚ)
  deriving DecidableEq, Repr

instance : Inhabited StockMetric :=
  ⟨⟨MetricKind.sma, 0, 0, none, none, none⟩⟩

/-- `StockMetric.get_data`: the cached result, or the
"metric fetched without bar data to process" error when absent. -/
def StockMetric.get_data (m : StockMetric) :
    Except String (List ℚ × List ℚ) :=
  match m.result with
  | some r => Except.ok r
  | none => Except.error "metric fetched without bar data to process"

/-- `StockMetricModule.process_all`: fetch the data and, when the first
derivative is missing, compute both normalized derivative arrays from it. -/
def StockMetric.process_all (m : StockMetric) : Except String StockMetric := do
  let td ← m.get_data
  if m.first_derivative.isNone then do
    let nd ← calculate_normalized_derivatives td.1 td.2
    return { m with
      first_derivative := some nd.1
      second_derivative := some nd.2 }
  else
    return m

/-- The `if m.first_derivative is None: m.process_all(data)` step both
annotators run on each required metric. -/
def ensure_processed (m : StockMetric) : Except String StockMetric :=
  if m.first_derivative.isNone then m.process_all else Except.ok m

/-- A `None` check for a derivative array an annotator indexes into (indexing
`None` is a fatal `TypeError` in the source). -/
def requireSome (o : Option (List ℚ)) : Except String (List ℚ) :=
  match o with
  | some l => Except.ok l
  | none => Except.error "TypeError: cannot index None"

/-- `MACDStockMetric.process_data`, as a function of the two EMA metrics'
`get_data` results `(dat, day)` and `(dbt, dby)`: raise unless the two series
begin at the identical first timestamp, then return the elementwise
difference over the fast series' time axis. -/
def MACDStockMetric.process_data (ema_a_data ema_b_data : List ℚ × List ℚ) :
    Except String (List ℚ × List ℚ) := do
  let dat := ema_a_data.1
  let day := ema_a_data.2
  let dbt := ema_b_data.1
  let dby := ema_b_data.2
  let a0 ← pyIndex dat 0
  let b0 ← pyIndex dbt 0
  if a0 ≠ b0 then
    Except.error
      "macd cannot handle emas with different starting times, add more historical data"
  else do
    let macd ← (List.range dat.length).mapM (fun (i : ℕ) => do
      let x ← pyIndex day (i : ℤ)
      let y ← pyIndex dby (i : ℤ)
      return x - y)
    return (dat, macd)

/-- The slice of `GeneralStockPlotInfo` the annotators read: the bar list
(`closes` and `times` are derived fields in the source). -/
structure GeneralStockPlotInfo where
  bars : List Bar
  deriving DecidableEq, Repr

/-- Python `key in dict` for the metrics map (insertion-ordered, unique
keys, modelled as an association list). -/
def pyDictContains (m : List (String × StockMetric)) (k : String) : Bool :=
  (m.lookup k).isSome

/-- Python `dict[key]`: `KeyError` when absent. -/
def pyDictGet (m : List (String × StockMetric)) (k : String) :
    Except String StockMetric :=
  match m.lookup k with
  | some v => Except.ok v
  | none => Except.error "KeyError"

/-- `CrossoverTypes` of the MACD annotator. -/
inductive CrossoverTypes where
  | NONE
  | NEGATIVE
  | POSITIVE
  deriving DecidableEq, Repr

/-- `detect_macd_signal_crossover`: three-way comparison of the previous
MACD/signal pair against the current one, ties at the current sample resolved
by the direction of the previous relationship. -/
def detect_macd_signal_crossover (macd_idx : ℤ) (macd : List ℚ)
    (signal_idx : ℤ) (signal : List ℚ) : Except String CrossoverTypes := do
  if macd_idx = 0 ∨ signal_idx = 0 then
    return CrossoverTypes.NONE
  else do
    let pm ← pyIndex macd (macd_idx - 1)
    let ps ← pyIndex signal (signal_idx - 1)
    if pm = ps then
      return CrossoverTypes.NONE
    else do
      let cm ← pyIndex macd macd_idx
      let cs ← pyIndex signal signal_idx
      if cm = cs then
        return (if pm > ps then CrossoverTypes.NEGATIVE
          else CrossoverTypes.POSITIVE)
      else if pm > ps then
        return (if cm < cs then CrossoverTypes.NEGATIVE
          else CrossoverTypes.NONE)
      else
        return (if cm > cs then CrossoverTypes.POSITIVE
          else CrossoverTypes.NONE)

/-- The mutable state of the MACD annotator's scan. -/
structure MACDLoopState where
  holding : Bool
  last_buy : ℤ
  last_sell : ℤ
  result : List (ℤ × TradeActions)
  deriving DecidableEq, Repr

/-- `MACDAnnotator.annotate`: require the `macd` and `signal` metrics (else
raise), look up `ema_26_2` (a `KeyError` when absent), process whatever lacks
derivatives, align the MACD series against the bar list with a single
computed offset, and scan for crossovers; a POSITIVE crossover passing the
`last_buy` guard and the EMA slope/curvature gate emits `BUY_HALF` and sets
`holding`, a NEGATIVE one while holding with the opposite gate emits
`SELL_HALF`.  (`last_buy` is never reassigned anywhere in the source loop.) -/
def MACDAnnotator.annotate (start : ℕ) (data : GeneralStockPlotInfo)
    (metrics : List (String × StockMetric)) :
    Except String (List (ℤ × TradeActions)) := do
  if ¬ pyDictContains metrics "macd" ∨ ¬ pyDictContains metrics "signal" then
    Except.error "macd annotator requires macd and signal metrics to be present"
  else do
    let ema_26 ← pyDictGet metrics "ema_26_2"
    let macd ← pyDictGet metrics "macd"
    let signal_line ← pyDictGet metrics "signal"
    let ema_26 ← ensure_processed ema_26
    let macd ← ensure_processed macd
    let signal_line ← ensure_processed signal_line
    let md ← macd.get_data
    let macd_raw := md.2
    let sd ← signal_line.get_data
    let signal_raw := sd.2
    let ema_d1 ← requireSome ema_26.first_derivative
    let ema_d2 ← requireSome ema_26.second_derivative
    let macd_offset : ℤ :=
      if macd_raw.length < data.bars.length then
        (data.bars.length : ℤ) - (macd_raw.length : ℤ)
      else 0
    let final ← (List.range (data.bars.drop start).length).foldlM
      (fun (st : MACDLoopState) (bi : ℕ) => do
        let idx : ℤ := (start : ℤ) + (bi : ℤ) - macd_offset
        if idx < (signal_line.window : ℤ) then
          return st
        else do
          let crossover ← detect_macd_signal_crossover idx macd_raw
            (idx - (signal_line.window : ℤ)) signal_raw
          if crossover = CrossoverTypes.NONE then
            return st
          else if crossover = CrossoverTypes.POSITIVE ∧
              (st.last_buy < 0 ∨ idx - st.last_buy > 10) then do
            let gate ←
              if 0 < idx ∧ idx < (data.bars.length : ℤ) - 1 then do
                let x ← pyIndex ema_d2 (idx - 1)
                if x > 0 then
                  pure true
                else do
                  let y ← pyIndex ema_d1 (idx - 1)
                  pure (decide (y > 0))
              else
                pure false
            if gate then
              return { st with
                result := st.result ++ [(idx, TradeActions.BUY_HALF)]
                holding := true }
            else
              return st
          else if crossover = CrossoverTypes.NEGATIVE ∧ st.holding then do
            let gate ←
              if 0 < idx ∧ idx < (data.bars.length : ℤ) - 1 then do
                let x ← pyIndex ema_d2 (idx - 1)
                if x < 0 then
                  pure true
                else do
                  let y ← pyIndex ema_d1 (idx - 1)
                  pure (decide (y < 0))
              else
                pure false
            if gate then
              return { st with
                result := st.result ++ [(idx, TradeActions.SELL_HALF)] }
            else
              return st
          else
            return st)
      (⟨false, -1, -1, []⟩ : MACDLoopState)
    return final.result

/-- The mutable state of the peak annotator's scan. -/
structure PeakLoopState where
  holding : Bool
  last_buy : ℤ
  last_sell : ℤ
  result : List (ℕ × TradeActions)
  deriving DecidableEq, Repr

/-- `PeakAnnotator.annotate`: collect the SMA metrics from the map, sort by
window; with fewer than 3 of them, or too few bars for the longest window,
return the empty list; otherwise scan the bar indices emitting `BUY_HALF` on
a flat fast derivative under a rising slow one, `SELL_HALF` / `SELL_ALL`
per the profit and curvature gates.  The source processes the metric objects
of `smas` in place; the sorted view shares those objects and its `window`
sort key is untouched, so processing through the sorted list is
equivalent. -/
def PeakAnnotator.annotate (trough_limit peak_limit : ℚ) (start : ℕ)
    (data : GeneralStockPlotInfo) (metrics : List (String × StockMetric)) :
    Except String (List (ℕ × TradeActions)) := do
  let smas := (metrics.map Prod.snd).filter
    (fun m => decide (m.kind = MetricKind.sma))
  let swin := smas.insertionSort (fun a b => a.window ≤ b.window)
  if swin.length < 3 ∨
      data.bars.length < (swin.getLastD default).window + 2 then
    return []
  else do
    let swin ← swin.mapM ensure_processed
    let s0 := swin.headD default
    let s1 := swin.getD 1 default
    let sN := swin.getLastD default
    let closes := data.bars.map Bar.close
    let final ← (List.range' start (data.bars.length - start)).foldlM
      (fun (st : PeakLoopState) (i : ℕ) => do
        let d1s0 ← requireSome s0.first_derivative
        let ad1lraw ← pyIndex d1s0 ((i : ℤ) - (s0.window : ℤ))
        let ad1l := |ad1lraw|
        let buyGate ←
          if ¬ st.holding ∧ ad1l < trough_limit then do
            let d1sN ← requireSome sN.first_derivative
            let x ← pyIndex d1sN ((i : ℤ) - (sN.window : ℤ))
            pure (decide (trough_limit < x))
          else
            pure false
        if buyGate then
          return { st with
            result := st.result ++ [(i, TradeActions.BUY_HALF)]
            holding := true
            last_buy := (i : ℤ) }
        else if ¬ st.holding ∨ (st.holding ∧ (i : ℤ) - st.last_buy < 3) then
          return st
        else do
          let ci ← pyIndex closes (i : ℤ)
          let cb ← pyIndex closes st.last_buy
          let change_since_buy ← pydiv (ci - cb) cb
          let change_since_sell ←
            if st.last_sell ≥ 0 then do
              let cs ← pyIndex closes st.last_sell
              pydiv (ci - cs) cs
            else
              pure (100 : ℚ)
          if (st.last_sell < 0 ∨ change_since_sell ≥ 1 / 100) ∧
              change_since_buy ≥ 1 / 100 ∧ ad1l < trough_limit then
            return { st with
              result := st.result ++ [(i, TradeActions.SELL_HALF)]
              last_sell := (i : ℤ) }
          else if i = data.bars.length - 1 ∧ st.holding then
            return { st with
              result := st.result ++ [(i, TradeActions.SELL_ALL)]
              holding := false
              last_sell := (i : ℤ) }
          else do
            let d2s1 ← requireSome s1.second_derivative
            let d2m ← pyIndex d2s1 ((i : ℤ) - (s1.window : ℤ))
            let d2sN ← requireSome sN.second_derivative
            let d2h ← pyIndex d2sN ((i : ℤ) - (sN.window : ℤ))
            if (st.last_sell < 0 ∨ change_since_sell ≥ 1 / 100) ∧
                change_since_buy ≥ 1 / 100 ∧
                d2m < 0 ∧ 0 < d2h ∧ d2h < trough_limit ∧
                ad1l < trough_limit then
              return { st with
                result := st.result ++ [(i, TradeActions.SELL_ALL)]
                holding := false
                last_sell := (i : ℤ) }
            else
              return st)
      (⟨false, -1, -1, []⟩ : PeakLoopState)
    return final.result

/-- A concrete precomputed indicator map for exercising the MACD annotator:
the MACD series crosses the signal line upward between indices 1–2 and again
between indices 3–4, the EMA derivative arrays are uniformly positive. -/
def macdCooldownMetrics : List (String × StockMetric) :=
  [("macd",
      ⟨MetricKind.macd, 0, 0,
        some ([0, 1, 2, 3, 4, 5, 6, 7], [0, 0, 2, 0, 2, 0, 0, 0]),
        some [1, 1, 1, 1, 1, 1, 1], some [1, 1, 1, 1, 1, 1]⟩),
    ("signal",
      ⟨MetricKind.signal, 1, 2,
        some ([1, 2, 3, 4, 5, 6, 7, 8], [9, 1, 1, 1, 1, 9, 9, 9]),
        some [1, 1, 1, 1, 1, 1, 1], some [1, 1, 1, 1, 1, 1]⟩),
    ("ema_26_2",
      ⟨MetricKind.ema, 2, 2,
        some ([0, 1, 2, 3, 4, 5, 6, 7], [1, 1, 1, 1, 1, 1, 1, 1]),
        some [1, 1, 1, 1, 1, 1, 1], some [1, 1, 1, 1, 1, 1]⟩)]

/-- Eight one-second bars accompanying `macdCooldownMetrics`. -/
def macdCooldownBars : List Bar :=
  (List.range 8).map (fun i => ⟨"A", (i : ℤ), 1, 1, 1, 1, 1⟩)

/-- C2 (failing input): at `previous_tail_values = [2, 2]`, `values = [0]`,
`times = [0]`, `window = 2`, the single output of `create_continuous_sma` is
`4/3`: the borrow branch takes `window - (i - 1) = 2` tail values and
averages the `window + 1 = 3` samples `[2, 2, 0]`, while the claim (and the
function's own docstring, which calls `window` "the number of values to
average") prescribes the `window = 2` samples `[2, 0]` with average `1`. -/
theorem C2_continuous_sma_window_bug :
    create_continuous_sma [2, 2] [0] [0] 2 = ([0], [4 / 3]) ∧
      ((pyNegSlice [2, 2] (2 - 1) ++ [0]).sum / 2 : ℚ) = 1 ∧
      (4 / 3 : ℚ) ≠ 1 := by
  refine ⟨?_, by norm_num [pyNegSlice], by norm_num⟩
  norm_num [create_continuous_sma, pyNegSlice, List.range_succ]

set_option maxRecDepth 4000 in
/-- C3 (failing input): for `start = 0`, `stop = 120`, `delta = 60` and one
real bar at offset 30, the bucket containing `start` is `0` and the claimed
output length is `ceil((120 - 0) / 60) = 2`, but `fill_in_sparse_bars`
returns a single bar: the trailing fill loop stops before the final bucket
whenever its end-of-bucket timestamp has already reached `stop`. -/
theorem C3_gap_fill_length_bug :
    (fill_in_sparse_bars 0 120 60 (by decide)
        [⟨"A", 30, 1, 1, 1, 1, 1⟩]).length = 1 ∧
      nearest_bucket (datetime_to_second_offset 0) 60 = 0 ∧
      (120 - 0 + 60 - 1) / 60 = 2 := by
  refine ⟨?_, by norm_num [nearest_bucket, datetime_to_second_offset], by norm_num⟩
  simp only [fill_in_sparse_bars, List.insertionSort, List.orderedInsert,
    truncate_datetime, datetime_to_second_offset, fill_main_loop]
  norm_num
  rw [fill_gap_loop]
  norm_num
  rw [fill_tail_loop]
  norm_num

/-- C6 (counterexample): the non-empty, non-degenerate series `[0, 1]` makes
`normalize_bipolar` divide its zero entry by the series minimum `0`, a
`ZeroDivisionError` — the claim's "no division by zero occurs" fails. -/
theorem C6_normalize_bipolar_counterexample :
    normalize_bipolar [0, 1] = Except.error "ZeroDivisionError" := by
  decide

/-- C1 (counterexample): day 1 has closes `[0, 1, 0]` at times `[0, 1, 2]`,
day 2 has close `[1]` at time `[3]`, `window = 2`, `smoothing = 2`, and the
previous tail `[1, 0]` is exactly day 1's last 2 closes.  The continuous EMA
starts at day 2's first timestamp with value `5/6`, but the plain EMA over
the full day 1 + day 2 concatenation carries the recurrence through all of
day 1 and yields `13/18` at that same timestamp. -/
theorem C1_ema_continuity_counterexample :
    create_continuous_ema [1, 0] [3] [1] 2 2 = ([3], [5 / 6]) ∧
      (create_ema [0, 1, 2, 3] [0, 1, 0, 1] 2 2).1.getLast? = some 3 ∧
      (create_ema [0, 1, 2, 3] [0, 1, 0, 1] 2 2).2.getLast? =
        some (13 / 18) ∧
      (5 / 6 : ℚ) ≠ 13 / 18 := by
  refine ⟨?_, ?_, ?_, by norm_num⟩ <;>
    norm_num [create_continuous_ema, create_ema, ema_scan, pyNegSlice,
      List.range_succ]

set_option maxRecDepth 4000 in
/-- C9 (counterexample): two trades at offsets `0` and `60` with bucket width
`60` produce a single bar (the boundary trade at `60` is absorbed into the
first bucket by the `sts <= nts` test), although the first trade's bucket is
`0` and the last trade's bucket is `60`, so the claim's one-bar-per-bucket
coverage would require two bars. -/
theorem C9_find_bars_boundary_counterexample :
    (find_bars 60 (by decide)
        [⟨"A", 0, "X", 1, 5⟩, ⟨"A", 60, "X", 2, 7⟩]).length = 1 ∧
      nearest_bucket (datetime_to_second_offset 0) 60 = 0 ∧
      nearest_bucket (datetime_to_second_offset 60) 60 = 60 := by
  refine ⟨?_, by norm_num [nearest_bucket, datetime_to_second_offset],
    by norm_num [nearest_bucket, datetime_to_second_offset]⟩
  simp only [find_bars, List.insertionSort, List.orderedInsert,
    truncate_datetime, datetime_to_second_offset, find_bars_loop]
  norm_num

/-- C5 (counterexample): invoked with an indicator map containing no SMA
metric at all (fewer than 3), `PeakAnnotator.annotate` returns the empty
list successfully instead of raising. -/
theorem C5_peak_annotator_counterexample :
    PeakAnnotator.annotate (1 / 10) (8 / 10) 0 ⟨[⟨"A", 0, 1, 1, 1, 1, 1⟩]⟩ []
      = Except.ok [] := by
  decide

set_option maxRecDepth 8000 in
set_option maxHeartbeats 3200000 in
/-- C7 (failing input): on `macdCooldownMetrics` / `macdCooldownBars` the
MACD annotator emits `BUY_HALF` at bar indices 2 and 4 — only 2 bars apart —
because the loop never assigns `last_buy` after a buy, so the
`idx - last_buy > 10` cooldown guard compares against the initial `-1`
forever and the claimed 10-bar spacing is not enforced. -/
theorem C7_macd_cooldown_bug :
    MACDAnnotator.annotate 0 ⟨macdCooldownBars⟩ macdCooldownMetrics =
      Except.ok [(2, TradeActions.BUY_HALF), (4, TradeActions.BUY_HALF)] ∧
      ¬ ((4 : ℤ) - 2 > 10) := by
  refine ⟨?_, by norm_num⟩
  decide

theorem ema_scan_length (k p : ℚ) (l : List ℚ) :
    (ema_scan k p l).length = l.length := by
  induction l generalizing p with
  | nil => simp [ema_scan]
  | cons b rest ih => simp [ema_scan, ih]

theorem range_drop (n o : ℕ) :
    (List.range n).drop o = List.range' o (n - o) := by
  induction n with
  | zero => simp
  | succ m ih =>
    rcases le_or_lt o m with h | h
    · rw [List.range_succ, List.drop_append_of_le_length (by simpa using h),
        ih, show m + 1 - o = (m - o) + 1 by omega, List.range'_concat]
      congr 2
      omega
    · rw [List.range_succ, List.drop_eq_nil_of_le (by simp; omega),
        show m + 1 - o = 0 by omega]
      simp

theorem map_getD_range' (times : List ℚ) :
    ∀ (n a : ℕ), a + n ≤ times.length →
      (List.range' a n).map (fun i => times.getD i 0) =
        (times.drop a).take n := by
  intro n
  induction n with
  | zero => intro a _; simp
  | succ m ih =>
    intro a h
    have ha : a < times.length := by omega
    rw [List.range'_succ, List.map_cons, ih (a + 1) (by omega),
      List.getD_eq_getElem _ _ ha, List.drop_eq_getElem_cons ha,
      List.take_succ_cons]

theorem map_getD_range_drop (times : List ℚ) (n o : ℕ)
    (hlen : times.length = n) :
    ((List.range n).drop o).map (fun i => times.getD i 0) = times.drop o := by
  rcases le_or_lt o n with h | h
  · rw [range_drop, map_getD_range' times (n - o) o (by omega)]
    exact List.take_of_length_le (by simp; omega)
  · rw [List.drop_eq_nil_of_le (by simpa using le_of_lt h),
      List.drop_eq_nil_of_le (by omega)]
    simp

/-- Unfolding of `create_continuous_ema` past its guards, with the times
column resolved against an aligned `times` list. -/
theorem create_continuous_ema_spec (tail times bars : List ℚ) (w : ℕ)
    (s : ℚ) (hguard : w ≤ tail.length + bars.length)
    (hlen : times.length = bars.length) :
    create_continuous_ema tail times bars w s =
      (let o : ℕ := if tail.length < w then w - tail.length else 0
      let seed : ℚ := if tail.length < w then
          (tail ++ bars.take (w - tail.length)).sum / (w : ℚ)
        else (pyNegSlice tail w).sum / (w : ℚ)
      if bars.length ≤ o then ([], [])
      else (times.drop o, ema_scan (s / (1 + (w : ℚ))) seed (bars.drop o))) := by
  unfold create_continuous_ema
  rw [if_neg (by omega)]
  simp only []
  by_cases hlt : tail.length < w
  · simp only [if_pos hlt]
    by_cases hoff : bars.length ≤ w - tail.length
    · rw [if_pos (by omega), if_pos hoff]
    · rw [if_neg (by omega), if_neg hoff,
        map_getD_range_drop times bars.length _ hlen]
  · simp only [if_neg hlt]
    by_cases hoff : bars.length ≤ 0
    · rw [if_pos (by omega), if_pos hoff]
    · rw [if_neg (by omega), if_neg hoff,
        map_getD_range_drop times bars.length _ hlen]

/-- C10: with a short previous tail (`len(previous_tail) < window`) but
sufficient combined data, `create_continuous_ema` consumes the first
`offset = window - len(previous_tail)` current values to seed the average:
its output starts at `times[offset]` and has `len(values) - offset` entries
(strictly fewer than the input), it degenerates to the empty series when
`offset >= len(values)`, and (for strictly increasing times) the first input
timestamp is never covered. -/
theorem C10_continuous_ema_truncation (tail times bars : List ℚ) (w : ℕ)
    (s : ℚ) (hshort : tail.length < w)
    (htotal : w ≤ tail.length + bars.length)
    (hlen : times.length = bars.length) :
    (w - tail.length < bars.length →
      (create_continuous_ema tail times bars w s).1 =
          times.drop (w - tail.length) ∧
        (create_continuous_ema tail times bars w s).1.head? =
          times[w - tail.length]? ∧
        (create_continuous_ema tail times bars w s).2.length =
          bars.length - (w - tail.length) ∧
        (create_continuous_ema tail times bars w s).2.length <
          bars.length) ∧
      (bars.length ≤ w - tail.length →
        create_continuous_ema tail times bars w s = ([], [])) ∧
      (times.Sorted (· < ·) → bars ≠ [] →
        ∀ t, times.head? = some t →
          t ∉ (create_continuous_ema tail times bars w s).1) := by
  rw [create_continuous_ema_spec tail times bars w s htotal hlen]
  simp only [if_pos hshort]
  refine ⟨?_, ?_, ?_⟩
  · intro ho
    rw [if_neg (by omega)]
    refine ⟨rfl, List.head?_drop times _, ?_, ?_⟩
    · simp [ema_scan_length]
    · rw [ema_scan_length]
      simp only [List.length_drop]
      omega
  · intro ho
    rw [if_pos ho]
  · intro hsorted hne t ht
    by_cases ho : bars.length ≤ w - tail.length
    · rw [if_pos ho]
      simp
    · rw [if_neg ho]
      intro hmem
      rcases times with _ | ⟨t0, rest⟩
      · simp at ht
      · simp only [List.head?_cons, Option.some.injEq] at ht
        subst ht
        have hdrop : (t0 :: rest).drop (w - tail.length) ⊆ rest := by
          have hw1 : 1 ≤ w - tail.length := by omega
          intro x hx
          rcases Nat.exists_eq_add_of_le hw1 with ⟨m, hm⟩
          rw [hm, Nat.add_comm, List.drop_succ_cons] at hx
          exact List.drop_subset m rest hx
        have := (List.sorted_cons.mp hsorted).1 t0 (hdrop hmem)
        exact lt_irrefl t0 this

theorem C10_continuous_ema_truncation_witness :
    (create_continuous_ema [1] [10, 20] [4, 6] 2 2).1 = [20] ∧
      create_continuous_ema [1, 2] [10] [4] 3 2 = ([], []) := by
  constructor
  · have h := (C10_continuous_ema_truncation [1] [10, 20] [4, 6] 2 2
      (by norm_num) (by norm_num) (by norm_num)).1 (by norm_num)
    rw [h.1]
    rfl
  · exact (C10_continuous_ema_truncation [1, 2] [10] [4] 3 2
      (by norm_num) (by norm_num) (by norm_num)).2.1 (by norm_num)

theorem pyNegSlice_self_length (l : List ℚ) : pyNegSlice l l.length = l := by
  unfold pyNegSlice
  split
  · rfl
  · simp

/-- C1 (amended): when day 2's previous tail is exactly day 1's last `window`
closes, the continuous EMA over day 2 is non-empty, starts at day 2's first
timestamp, and its first value equals the value the plain `create_ema`
produces at that same timestamp when run over the concatenation of day 1's
last `window` closes and day 2's values as one continuous series. -/
theorem C1_ema_continuity_amended (tail times1 times2 vals : List ℚ)
    (w : ℕ) (s : ℚ) (hw : 1 ≤ w) (htail : tail.length = w)
    (htimes1 : times1.length = w) (hvals : vals ≠ [])
    (hlen : times2.length = vals.length) :
    (create_continuous_ema tail times2 vals w s).1 ≠ [] ∧
      (create_continuous_ema tail times2 vals w s).1.head? =
        times2.head? ∧
      (create_ema (times1 ++ times2) (tail ++ vals) w s).1.head? =
        times2.head? ∧
      (create_continuous_ema tail times2 vals w s).2.head? =
        (create_ema (times1 ++ times2) (tail ++ vals) w s).2.head? := by
  have hvlen : 0 < vals.length := List.length_pos.mpr hvals
  have hcont : create_continuous_ema tail times2 vals w s =
      (times2, ema_scan (s / (1 + (w : ℚ))) (tail.sum / (w : ℚ)) vals) := by
    rw [create_continuous_ema_spec tail times2 vals w s (by omega) hlen]
    rw [htail]
    simp only [lt_self_iff_false, if_false]
    rw [if_neg (by omega), ← htail, pyNegSlice_self_length]
    simp
  have hema : create_ema (times1 ++ times2) (tail ++ vals) w s =
      (times2, ema_scan (s / (1 + (w : ℚ))) (tail.sum / (w : ℚ)) vals) := by
    unfold create_ema
    rw [if_neg (by simp; omega),
      if_neg (by simp only [ge_iff_le, Nat.le_zero, List.length_append]; omega)]
    have hblen : (tail ++ vals).length = times1.length + times2.length := by
      simp [htail, htimes1, hlen]
    rw [map_getD_range_drop (times1 ++ times2) (tail ++ vals).length w
      (by simp [htail, htimes1, hlen])]
    rw [show w = times1.length from htimes1.symm, List.drop_left]
    rw [show times1.length = tail.length from by omega, List.take_left,
      List.drop_left]
  rw [hcont, hema]
  refine ⟨?_, rfl, rfl, rfl⟩
  show times2 ≠ []
  intro hcontra
  rw [← List.length_eq_zero] at hcontra
  omega

theorem C1_ema_continuity_amended_witness :
    (create_continuous_ema [7, 9] [30, 40] [2, 4] 2 3).2.head? =
      (create_ema [10, 20, 30, 40] [7, 9, 2, 4] 2 3).2.head? :=
  (C1_ema_continuity_amended [7, 9] [10, 20] [30, 40] [2, 4] 2 3
    (by norm_num) (by norm_num) (by norm_num) (by simp)
    (by norm_num)).2.2.2

theorem loop_cond_iff (excl : Bool) (stop current : ℤ) :
    ((current < stop ∧ excl = true) ∨ (current ≤ stop ∧ excl = false)) ↔
      interval_day_cond excl stop current := by
  cases excl <;> simp [interval_day_cond]

theorem flatMap_congr_left {α β : Type} {f g : α → List β} :
    ∀ {l : List α}, (∀ a ∈ l, f a = g a) → l.flatMap f = l.flatMap g := by
  intro l
  induction l with
  | nil => intro _; rfl
  | cons a rest ih =>
    intro h
    simp only [List.flatMap_cons, h a (by simp),
      ih (fun b hb => h b (by simp [hb]))]

theorem process_interval_loop_spec {α : Type} (fetch load : ℤ → α)
    (check : ℤ → Bool) (excl : Bool) (stop : ℤ) :
    ∀ (n : ℕ) (current : ℤ),
      (∀ k, k < n → interval_day_cond excl stop (current + 86400 * k)) →
      ¬ interval_day_cond excl stop (current + 86400 * n) →
      process_interval_loop fetch load check excl stop current =
        ((List.range n).map (fun (k : ℕ) =>
            let d := current + 86400 * (k : ℤ)
            if check d then load d else fetch d),
          (List.range n).flatMap (fun (k : ℕ) =>
            let d := current + 86400 * (k : ℤ)
            if check d then [CacheEvent.check d, CacheEvent.load d]
            else [CacheEvent.check d, CacheEvent.fetch d,
              CacheEvent.save d (fetch d)])) := by
  intro n
  induction n with
  | zero =>
    intro current _ hstop
    rw [process_interval_loop, dif_neg]
    · simp
    · rw [loop_cond_iff]
      simpa using hstop
  | succ m ih =>
    intro current hall hstop
    have hc : interval_day_cond excl stop current := by
      have := hall 0 (by omega)
      simpa using this
    rw [process_interval_loop,
      dif_pos ((loop_cond_iff excl stop current).mpr hc)]
    rw [ih (current + 86400)
      (fun k hk => by
        have := hall (k + 1) (by omega)
        have harith : current + 86400 + 86400 * (k : ℤ) =
            current + 86400 * ((k : ℕ) + 1 : ℕ) := by push_cast; ring
        rw [harith]
        exact this)
      (by
        have harith : current + 86400 + 86400 * (m : ℤ) =
            current + 86400 * ((m : ℕ) + 1 : ℕ) := by push_cast; ring
        rw [harith]
        exact hstop)]
    have hshift : ∀ (k : ℕ), current + 86400 + 86400 * (k : ℤ) =
        current + 86400 * ((Nat.succ k : ℕ) : ℤ) := by
      intro k
      push_cast
      ring
    rw [List.range_succ_eq_map]
    simp only [List.map_cons, List.flatMap_cons, List.map_map,
      List.flatMap_map, Nat.cast_zero, mul_zero, add_zero, Prod.mk.injEq]
    constructor
    · by_cases hch : check current <;>
        simp only [hch, ite_true, ite_false, Bool.false_eq_true] <;>
        · congr 1
          apply List.map_congr_left
          intro k _
          simp only [Function.comp_apply, hshift k]
    · by_cases hch : check current <;>
        simp only [hch, ite_true, ite_false, Bool.false_eq_true] <;>
        · congr 1
          apply flatMap_congr_left
          intro k _
          simp only [Function.comp_apply, hshift k]

/-- C4: when `exclusive_end` is false and the (non-exclusive) interval end
`start + duration` falls on or after today's date, `process_interval` raises
before invoking any of check/load/fetch/save (empty event trace); otherwise
it walks the interval one calendar day at a time (end-exclusive when
`exclusive_end` is true, end-inclusive when false) and for each walked day
performs exactly `check` then `load` (cache hit) or exactly `check`, `fetch`,
then `save` of that fetch's result (cache miss), collecting the per-day
results in chronological day order. -/
theorem C4_process_interval_contract {α : Type} (today start duration : ℤ)
    (fetch load : ℤ → α) (check : ℤ → Bool) (excl : Bool) :
    (excl = false → today ≤ date_of (start + duration) →
      process_interval today start duration fetch load check excl =
        (Except.error "invalid interval, end date is >= today", [])) ∧
    (∀ n : ℕ, (excl = true ∨ date_of (start + duration) < today) →
      (∀ k, k < n →
        interval_day_cond excl (start + duration) (start + 86400 * k)) →
      ¬ interval_day_cond excl (start + duration) (start + 86400 * n) →
      process_interval today start duration fetch load check excl =
        (Except.ok ((List.range n).map (fun (k : ℕ) =>
            let d := start + 86400 * (k : ℤ)
            if check d then load d else fetch d)),
          (List.range n).flatMap (fun (k : ℕ) =>
            let d := start + 86400 * (k : ℤ)
            if check d then [CacheEvent.check d, CacheEvent.load d]
            else [CacheEvent.check d, CacheEvent.fetch d,
              CacheEvent.save d (fetch d)]))) := by
  constructor
  · intro hexcl htoday
    unfold process_interval
    rw [if_pos ⟨htoday, hexcl⟩]
  · intro n hguard hall hstop
    unfold process_interval
    rw [if_neg (by
      rcases hguard with h | h
      · rintro ⟨-, habs⟩
        rw [h] at habs
        exact absurd habs (by simp)
      · rintro ⟨hge, -⟩
        omega)]
    rw [process_interval_loop_spec fetch load check excl (start + duration)
      n start hall hstop]

theorem C4_process_interval_contract_witness :
    process_interval (α := ℤ) 1 0 172800 (fun d => d) (fun d => d + 1000)
        (fun d => d == 0) false =
      (Except.error "invalid interval, end date is >= today", []) ∧
    process_interval (α := ℤ) 1 0 172800 (fun d => d) (fun d => d + 1000)
        (fun d => d == 0) true =
      (Except.ok [1000, 86400],
        [CacheEvent.check 0, CacheEvent.load 0, CacheEvent.check 86400,
          CacheEvent.fetch 86400, CacheEvent.save 86400 86400]) := by
  constructor
  · exact (C4_process_interval_contract 1 0 172800 (fun d => d)
      (fun d => d + 1000) (fun d => d == 0) false).1 rfl (by decide)
  · have h := (C4_process_interval_contract 1 0 172800 (fun d => d)
      (fun d => d + 1000) (fun d => d == 0) true).2 2 (Or.inl rfl)
      (by decide) (by decide)
    rw [h]
    decide

theorem pyIndex_natCast (l : List ℚ) (a : ℕ) (h : a < l.length) :
    pyIndex l (a : ℤ) = Except.ok l[a] := by
  unfold pyIndex
  have h0 : ¬ ((a : ℤ) < 0) := by omega
  simp only [h0, if_false]
  rw [dif_pos ⟨by omega, by exact_mod_cast h⟩]
  simp

theorem pyIndex_nil_error : pyIndex ([] : List ℚ) 0 = Except.error "IndexError" := by
  unfold pyIndex
  simp

theorem pyIndex_zero_cons (x : ℚ) (l : List ℚ) :
    pyIndex (x :: l) 0 = Except.ok x := by
  have := pyIndex_natCast (x :: l) 0 (by simp)
  simpa using this

theorem mapM_pyIndex_sub (day dby : List ℚ) :
    ∀ (k a : ℕ), a + k ≤ day.length → a + k ≤ dby.length →
      (List.range' a k).mapM (fun i => do
        let x ← pyIndex day (i : ℤ)
        let y ← pyIndex dby (i : ℤ)
        pure (x - y)) =
      Except.ok (List.zipWith (fun x y => x - y)
        ((day.drop a).take k) ((dby.drop a).take k)) := by
  intro k
  induction k with
  | zero =>
    intro a _ _
    rfl
  | succ m ih =>
    intro a h1 h2
    have ha1 : a < day.length := by omega
    have ha2 : a < dby.length := by omega
    rw [List.range'_succ, List.mapM_cons]
    rw [ih (a + 1) (by omega) (by omega)]
    simp only [pyIndex_natCast day a ha1, pyIndex_natCast dby a ha2]
    rw [List.drop_eq_getElem_cons ha1, List.drop_eq_getElem_cons ha2,
      List.take_succ_cons, List.take_succ_cons, List.zipWith_cons_cons]
    rfl

theorem create_continuous_ema_cases (tail times bars : List ℚ) (w : ℕ)
    (s : ℚ) (hlen : times.length = bars.length) :
    create_continuous_ema tail times bars w s = ([], []) ∨
      ∃ (o : ℕ) (seed : ℚ), o < bars.length ∧
        create_continuous_ema tail times bars w s =
          (times.drop o, ema_scan (s / (1 + (w : ℚ))) seed (bars.drop o)) := by
  by_cases hg : tail.length + bars.length < w
  · left
    unfold create_continuous_ema
    rw [if_pos hg]
  · rw [create_continuous_ema_spec tail times bars w s (by omega) hlen]
    simp only []
    by_cases ho : bars.length ≤
        (if tail.length < w then w - tail.length else 0)
    · left
      rw [if_pos ho]
    · right
      refine ⟨(if tail.length < w then w - tail.length else 0),
        (if tail.length < w then
          (tail ++ List.take (w - tail.length) bars).sum / (w : ℚ)
        else (pyNegSlice tail w).sum / (w : ℚ)), by omega, ?_⟩
      rw [if_neg ho]

theorem sorted_getElem?_inj {times : List ℚ}
    (hmono : times.Sorted (· < ·)) {i j : ℕ} {t : ℚ}
    (hi : times[i]? = some t) (hj : times[j]? = some t) : i = j := by
  rw [List.getElem?_eq_some] at hi hj
  rcases hi with ⟨hi1, hi2⟩
  rcases hj with ⟨hj1, hj2⟩
  by_contra hne
  have hmonot := hmono.get_strictMono
  rcases Nat.lt_or_ge i j with h | h
  · have := hmonot (show (⟨i, hi1⟩ : Fin times.length) < ⟨j, hj1⟩ from h)
    simp only [List.get_eq_getElem, hi2, hj2] at this
    exact lt_irrefl t this
  · have hlt : j < i := by omega
    have := hmonot (show (⟨j, hj1⟩ : Fin times.length) < ⟨i, hi1⟩ from hlt)
    simp only [List.get_eq_getElem, hi2, hj2] at this
    exact lt_irrefl t this

theorem except_bind_ok {α β : Type} (v : α) (f : α → Except String β) :
    (Except.ok v : Except String α) >>= f = f v := rfl

theorem except_bind_error {α β : Type} (e : String)
    (f : α → Except String β) :
    (Except.error e : Except String α) >>= f = Except.error e := rfl

theorem pyIndex_drop_zero (times : List ℚ) (o : ℕ) (h : o < times.length) :
    pyIndex (times.drop o) 0 = Except.ok times[o] := by
  have h0 : ((0 : ℕ) : ℤ) = 0 := rfl
  rw [← h0, pyIndex_natCast (times.drop o) 0 (by simp; omega)]
  congr 1
  rw [List.getElem_drop]
  simp

/-- C8: `MACDStockMetric.process_data` applied to the two continuous EMA
series computed over the same (strictly increasing) time axis raises an
exception exactly when the two series do not start at the identical first
timestamp (in particular when either is empty); when they do start together
it returns the elementwise difference of the fast and slow values over the
shared time axis. -/
theorem C8_macd_alignment (times bars tail1 tail2 : List ℚ) (w1 w2 : ℕ)
    (s1 s2 : ℚ) (hmono : times.Sorted (· < ·))
    (hlen : times.length = bars.length) :
    ((∃ e, MACDStockMetric.process_data
          (create_continuous_ema tail1 times bars w1 s1)
          (create_continuous_ema tail2 times bars w2 s2) =
        Except.error e) ↔
      ¬ ∃ t,
        (create_continuous_ema tail1 times bars w1 s1).1.head? = some t ∧
        (create_continuous_ema tail2 times bars w2 s2).1.head? = some t) ∧
    (∀ t,
      (create_continuous_ema tail1 times bars w1 s1).1.head? = some t →
      (create_continuous_ema tail2 times bars w2 s2).1.head? = some t →
      MACDStockMetric.process_data
          (create_continuous_ema tail1 times bars w1 s1)
          (create_continuous_ema tail2 times bars w2 s2) =
        Except.ok ((create_continuous_ema tail1 times bars w1 s1).1,
          List.zipWith (fun x y => x - y)
            (create_continuous_ema tail1 times bars w1 s1).2
            (create_continuous_ema tail2 times bars w2 s2).2)) := by
  have hA := create_continuous_ema_cases tail1 times bars w1 s1 hlen
  have hB := create_continuous_ema_cases tail2 times bars w2 s2 hlen
  have hok : ∀ t,
      (create_continuous_ema tail1 times bars w1 s1).1.head? = some t →
      (create_continuous_ema tail2 times bars w2 s2).1.head? = some t →
      MACDStockMetric.process_data
          (create_continuous_ema tail1 times bars w1 s1)
          (create_continuous_ema tail2 times bars w2 s2) =
        Except.ok ((create_continuous_ema tail1 times bars w1 s1).1,
          List.zipWith (fun x y => x - y)
            (create_continuous_ema tail1 times bars w1 s1).2
            (create_continuous_ema tail2 times bars w2 s2).2) := by
    intro t hA1 hB1
    rcases hA with hAe | ⟨o1, seed1, ho1, hAeq⟩
    · rw [hAe] at hA1
      simp at hA1
    rcases hB with hBe | ⟨o2, seed2, ho2, hBeq⟩
    · rw [hBe] at hB1
      simp at hB1
    rw [hAeq] at hA1 ⊢
    rw [hBeq] at hB1 ⊢
    simp only [List.head?_drop] at hA1 hB1
    have ho12 : o1 = o2 := sorted_getElem?_inj hmono hA1 hB1
    subst ho12
    have hlt1 : o1 < times.length := by omega
    have hgt : times[o1] = t := by
      rcases List.getElem?_eq_some.mp hA1 with ⟨_, h⟩
      exact h
    simp only [MACDStockMetric.process_data]
    rw [pyIndex_drop_zero times o1 hlt1, hgt]
    simp only [except_bind_ok]
    rw [if_neg (by simp)]
    have hday : (ema_scan (s1 / (1 + (w1 : ℚ))) seed1 (bars.drop o1)).length =
        (times.drop o1).length := by
      rw [ema_scan_length]
      simp [hlen]
    have hdby : (ema_scan (s2 / (1 + (w2 : ℚ))) seed2 (bars.drop o1)).length =
        (times.drop o1).length := by
      rw [ema_scan_length]
      simp [hlen]
    rw [List.range_eq_range',
      mapM_pyIndex_sub _ _ (times.drop o1).length 0 (by omega) (by omega)]
    simp only [except_bind_ok, List.drop_zero]
    rw [show (List.drop o1 times).length =
        (ema_scan (s1 / (1 + (w1 : ℚ))) seed1 (bars.drop o1)).length from
      hday.symm]
    rw [List.take_length]
    rw [show (ema_scan (s1 / (1 + (w1 : ℚ))) seed1 (bars.drop o1)).length =
        (ema_scan (s2 / (1 + (w2 : ℚ))) seed2 (bars.drop o1)).length from
      hday.trans hdby.symm]
    rw [List.take_length]
    rfl
  refine ⟨⟨?_, ?_⟩, hok⟩
  · rintro ⟨e, he⟩ ⟨t, ht1, ht2⟩
    rw [hok t ht1 ht2] at he
    exact absurd he (by simp)
  · intro hns
    rcases hA with hAe | ⟨o1, seed1, ho1, hAeq⟩
    · refine ⟨"IndexError", ?_⟩
      rw [hAe]
      simp only [MACDStockMetric.process_data]
      rw [show pyIndex (([], []) : List ℚ × List ℚ).1 0 =
        Except.error "IndexError" from pyIndex_nil_error]
      rw [except_bind_error]
    · have hlt1 : o1 < times.length := by omega
      rcases hB with hBe | ⟨o2, seed2, ho2, hBeq⟩
      · refine ⟨"IndexError", ?_⟩
        rw [hAeq, hBe]
        simp only [MACDStockMetric.process_data]
        rw [pyIndex_drop_zero times o1 hlt1]
        simp only [except_bind_ok]
        rw [show pyIndex (([], []) : List ℚ × List ℚ).1 0 =
          Except.error "IndexError" from pyIndex_nil_error]
        rw [except_bind_error]
      · have hlt2 : o2 < times.length := by omega
        have hne : times[o1] ≠ times[o2] := by
          intro heq
          apply hns
          refine ⟨times[o1], ?_, ?_⟩
          · rw [hAeq]
            simp [List.head?_drop, List.getElem?_eq_getElem hlt1]
          · rw [hBeq]
            simp [List.head?_drop, List.getElem?_eq_getElem hlt2, heq]
        refine ⟨"macd cannot handle emas with different starting times, add more historical data", ?_⟩
        rw [hAeq, hBeq]
        simp only [MACDStockMetric.process_data]
        rw [pyIndex_drop_zero times o1 hlt1]
        simp only [except_bind_ok]
        rw [pyIndex_drop_zero times o2 hlt2]
        simp only [except_bind_ok]
        rw [if_pos hne]

theorem C8_macd_alignment_witness :
    MACDStockMetric.process_data
        (create_continuous_ema [5] [1, 2, 3] [5, 6, 7] 1 2)
        (create_continuous_ema [1, 2] [1, 2, 3] [5, 6, 7] 2 2) =
      Except.ok ((create_continuous_ema [5] [1, 2, 3] [5, 6, 7] 1 2).1,
        List.zipWith (fun x y => x - y)
          (create_continuous_ema [5] [1, 2, 3] [5, 6, 7] 1 2).2
          (create_continuous_ema [1, 2] [1, 2, 3] [5, 6, 7] 2 2).2) ∧
    (∃ e, MACDStockMetric.process_data
        (create_continuous_ema [5] [1, 2, 3] [5, 6, 7] 1 2)
        (create_continuous_ema [] [1, 2, 3] [5, 6, 7] 2 2) =
      Except.error e) := by
  constructor
  · exact (C8_macd_alignment [1, 2, 3] [5, 6, 7] [5] [1, 2] 1 2 2 2
      (by decide) (by norm_num)).2 1
      (by norm_num [create_continuous_ema, pyNegSlice, ema_scan,
        List.range_succ])
      (by norm_num [create_continuous_ema, pyNegSlice, ema_scan,
        List.range_succ])
  · refine (C8_macd_alignment [1, 2, 3] [5, 6, 7] [5] [] 1 2 2 2
      (by decide) (by norm_num)).1.mpr ?_
    rintro ⟨t, h1, h2⟩
    norm_num [create_continuous_ema, pyNegSlice, ema_scan,
      List.range_succ] at h1 h2
    rw [← h1] at h2
    norm_num at h2

/-- C5 (amended): the MACD annotator raises immediately when its map lacks
the `macd` or `signal` metric, and raises a `KeyError` when it lacks the
required `ema_26_2` EMA metric; the peak annotator invoked with fewer than 3
SMA metrics instead returns the empty annotated-action list without
raising. -/
theorem C5_missing_indicator_amended :
    (∀ (tl pl : ℚ) (start : ℕ) (data : GeneralStockPlotInfo)
      (metrics : List (String × StockMetric)),
      ((metrics.map Prod.snd).filter
        (fun m => decide (m.kind = MetricKind.sma))).length < 3 →
      PeakAnnotator.annotate tl pl start data metrics = Except.ok []) ∧
    (∀ (start : ℕ) (data : GeneralStockPlotInfo)
      (metrics : List (String × StockMetric)),
      (metrics.lookup "macd" = none ∨ metrics.lookup "signal" = none) →
      MACDAnnotator.annotate start data metrics =
        Except.error
          "macd annotator requires macd and signal metrics to be present") ∧
    (∀ (start : ℕ) (data : GeneralStockPlotInfo)
      (metrics : List (String × StockMetric)),
      metrics.lookup "macd" ≠ none → metrics.lookup "signal" ≠ none →
      metrics.lookup "ema_26_2" = none →
      MACDAnnotator.annotate start data metrics =
        Except.error "KeyError") := by
  refine ⟨?_, ?_, ?_⟩
  · intro tl pl start data metrics hlt
    simp only [PeakAnnotator.annotate]
    rw [if_pos (Or.inl (by
      rw [List.length_insertionSort]
      exact hlt))]
    rfl
  · intro start data metrics h
    simp only [MACDAnnotator.annotate]
    rw [if_pos (by
      rcases h with h | h
      · exact Or.inl (by simp [pyDictContains, h])
      · exact Or.inr (by simp [pyDictContains, h]))]
  · intro start data metrics h1 h2 h3
    simp only [MACDAnnotator.annotate]
    rw [if_neg (by
      push_neg
      constructor <;>
        simp [pyDictContains, Option.isSome_iff_ne_none, h1, h2])]
    rw [show pyDictGet metrics "ema_26_2" = Except.error "KeyError" from by
      unfold pyDictGet
      rw [h3]]
    rw [except_bind_error]

theorem C5_missing_indicator_amended_witness :
    PeakAnnotator.annotate 0 0 0 ⟨[]⟩ [] = Except.ok [] ∧
    MACDAnnotator.annotate 0 ⟨[]⟩ [] =
      Except.error
        "macd annotator requires macd and signal metrics to be present" ∧
    MACDAnnotator.annotate 0 ⟨[]⟩ [("macd", default), ("signal", default)] =
      Except.error "KeyError" :=
  ⟨C5_missing_indicator_amended.1 0 0 0 ⟨[]⟩ [] (by decide),
    C5_missing_indicator_amended.2.1 0 ⟨[]⟩ [] (Or.inl rfl),
    C5_missing_indicator_amended.2.2 0 ⟨[]⟩
      [("macd", default), ("signal", default)] (by decide) (by decide)
      (by decide)⟩

theorem foldl_min_le : ∀ (xs : List ℚ) (a : ℚ),
    xs.foldl min a ≤ a ∧ ∀ y ∈ xs, xs.foldl min a ≤ y := by
  intro xs
  induction xs with
  | nil => intro a; exact ⟨le_refl a, by simp⟩
  | cons b bs ih =>
    intro a
    refine ⟨le_trans (ih (min a b)).1 (min_le_left a b), ?_⟩
    intro y hy
    rcases List.mem_cons.mp hy with rfl | hy
    · exact le_trans (ih (min a y)).1 (min_le_right a y)
    · exact (ih (min a b)).2 y hy

theorem foldl_max_le : ∀ (xs : List ℚ) (a : ℚ),
    a ≤ xs.foldl max a ∧ ∀ y ∈ xs, y ≤ xs.foldl max a := by
  intro xs
  induction xs with
  | nil => intro a; exact ⟨le_refl a, by simp⟩
  | cons b bs ih =>
    intro a
    refine ⟨le_trans (le_max_left a b) (ih (max a b)).1, ?_⟩
    intro y hy
    rcases List.mem_cons.mp hy with rfl | hy
    · exact le_trans (le_max_right a y) (ih (max a y)).1
    · exact (ih (max a b)).2 y hy

theorem foldl_min_mem : ∀ (xs : List ℚ) (a : ℚ),
    xs.foldl min a = a ∨ xs.foldl min a ∈ xs := by
  intro xs
  induction xs with
  | nil => intro a; exact Or.inl rfl
  | cons b bs ih =>
    intro a
    rcases ih (min a b) with h | h
    · rcases min_choice a b with hm | hm
      · exact Or.inl (by rw [List.foldl_cons, h, hm])
      · exact Or.inr (by rw [List.foldl_cons, h, hm]; exact List.mem_cons_self b bs)
    · exact Or.inr (List.mem_cons_of_mem b h)

theorem pymin_le {l : List ℚ} {x : ℚ} (hx : x ∈ l) : pymin l ≤ x := by
  rcases l with _ | ⟨a, xs⟩
  · simp at hx
  · rcases List.mem_cons.mp hx with rfl | hx
    · exact (foldl_min_le xs x).1
    · exact (foldl_min_le xs a).2 x hx

theorem le_pymax {l : List ℚ} {x : ℚ} (hx : x ∈ l) : x ≤ pymax l := by
  rcases l with _ | ⟨a, xs⟩
  · simp at hx
  · rcases List.mem_cons.mp hx with rfl | hx
    · exact (foldl_max_le xs x).1
    · exact (foldl_max_le xs a).2 x hx

theorem pymin_mem {l : List ℚ} (h : l ≠ []) : pymin l ∈ l := by
  rcases l with _ | ⟨a, xs⟩
  · exact absurd rfl h
  · rcases foldl_min_mem xs a with hm | hm
    · rw [pymin, hm]
      exact List.mem_cons_self a xs
    · exact List.mem_cons_of_mem a hm

theorem normalize_mapM_ok (mn mx : ℚ) :
    ∀ (l : List ℚ), (∀ d ∈ l, 0 < d → mx ≠ 0) →
      (∀ d ∈ l, ¬ 0 < d → mn ≠ 0) →
      l.mapM (fun d => if d > 0 then pydiv d mx
        else (pydiv d mn).map (fun q => -q)) =
      Except.ok (l.map (fun d => if d > 0 then d / mx else -(d / mn))) := by
  intro l
  induction l with
  | nil => intro _ _; rfl
  | cons d ds ih =>
    intro h1 h2
    rw [List.mapM_cons, List.map_cons,
      ih (fun x hx => h1 x (List.mem_cons_of_mem d hx))
        (fun x hx => h2 x (List.mem_cons_of_mem d hx))]
    by_cases hd : d > 0
    · rw [if_pos hd, if_pos hd,
        show pydiv d mx = Except.ok (d / mx) from by
          unfold pydiv
          rw [if_neg (h1 d (List.mem_cons_self d ds) hd)]]
      rfl
    · rw [if_neg hd, if_neg hd,
        show pydiv d mn = Except.ok (d / mn) from by
          unfold pydiv
          rw [if_neg (h2 d (List.mem_cons_self d ds) hd)]]
      rfl

theorem normalize_mapM_error (mx : ℚ) :
    ∀ (l : List ℚ), (∃ d ∈ l, ¬ 0 < d) → (∀ d ∈ l, 0 < d → mx ≠ 0) →
      l.mapM (fun d => if d > 0 then pydiv d mx
        else (pydiv d (0 : ℚ)).map (fun q => -q)) =
      Except.error "ZeroDivisionError" := by
  intro l
  induction l with
  | nil => rintro ⟨d, hd, -⟩ _; simp at hd
  | cons d ds ih =>
    rintro ⟨w, hw, hwn⟩ h1
    rw [List.mapM_cons]
    by_cases hd : d > 0
    · have hw' : w ∈ ds := by
        rcases List.mem_cons.mp hw with rfl | h
        · exact absurd hd hwn
        · exact h
      rw [if_pos hd,
        show pydiv d mx = Except.ok (d / mx) from by
          unfold pydiv
          rw [if_neg (h1 d (List.mem_cons_self d ds) hd)]]
      rw [except_bind_ok,
        ih ⟨w, hw', hwn⟩ (fun x hx => h1 x (List.mem_cons_of_mem d hx))]
      rfl
    · rw [if_neg hd,
        show (pydiv d (0 : ℚ)).map (fun q => -q) =
            Except.error "ZeroDivisionError" from by
          unfold pydiv
          rw [if_pos rfl]
          rfl]
      rfl

/-- C6 (amended): for a non-empty series, `normalize_bipolar` maps a
degenerate series (max = min, in particular the all-zero series) to all
zeros; when the series is non-degenerate with a nonzero minimum, no division
by zero occurs, positive inputs are divided by the series max, non-positive
inputs by the (negated) series min, and every output lies in `[-1, 1]`; but a
non-degenerate series whose minimum is exactly zero raises
`ZeroDivisionError`. -/
theorem C6_normalize_bipolar_amended (data : List ℚ) (hne : data ≠ []) :
    (pymax data = pymin data →
      normalize_bipolar data =
        Except.ok (List.replicate data.length 0)) ∧
    (pymax data ≠ pymin data → pymin data ≠ 0 →
      normalize_bipolar data =
        Except.ok (data.map (fun d =>
          if d > 0 then d / pymax data else -(d / pymin data))) ∧
      ∀ x ∈ data.map (fun d =>
          if d > 0 then d / pymax data else -(d / pymin data)),
        -1 ≤ x ∧ x ≤ 1) ∧
    (pymax data ≠ pymin data → pymin data = 0 →
      normalize_bipolar data = Except.error "ZeroDivisionError") := by
  have hlen : ¬ data.length = 0 := by
    simpa [List.length_eq_zero] using hne
  have hmx_pos : ∀ d ∈ data, 0 < d → pymax data ≠ 0 := by
    intro d hd hdp h0
    have hle := le_pymax hd
    rw [h0] at hle
    linarith
  refine ⟨?_, ?_, ?_⟩
  · intro heq
    unfold normalize_bipolar
    rw [if_neg hlen, if_neg (by simpa using heq)]
  · intro hdeg hmn
    unfold normalize_bipolar
    rw [if_neg hlen, if_pos hdeg,
      normalize_mapM_ok (pymin data) (pymax data) data hmx_pos
        (fun d _ _ => hmn)]
    refine ⟨rfl, ?_⟩
    intro x hx
    rcases List.mem_map.mp hx with ⟨d, hd, rfl⟩
    by_cases hdp : d > 0
    · have hdmx : d ≤ pymax data := le_pymax hd
      have hmxp : 0 < pymax data := lt_of_lt_of_le hdp hdmx
      rw [if_pos hdp]
      constructor
      · exact le_trans (by norm_num) (le_of_lt (div_pos hdp hmxp))
      · exact (div_le_one hmxp).mpr hdmx
    · have hmnd : pymin data ≤ d := pymin_le hd
      have hd0 : d ≤ 0 := le_of_not_lt hdp
      have hmn0 : pymin data < 0 :=
        lt_of_le_of_ne (le_trans hmnd hd0) hmn
      rw [if_neg hdp]
      have hq : 0 ≤ d / pymin data :=
        div_nonneg_of_nonpos hd0 (le_of_lt hmn0)
      have hq1 : d / pymin data ≤ 1 := by
        rw [div_eq_mul_inv]
        have := mul_le_mul_of_nonpos_right hmnd
          (inv_nonpos.mpr (le_of_lt hmn0))
        rw [mul_inv_cancel₀ (ne_of_lt hmn0)] at this
        exact this
      constructor
      · linarith
      · linarith
  · intro hdeg hmn
    unfold normalize_bipolar
    rw [if_neg hlen, if_pos hdeg]
    rw [show (fun d => if d > 0 then pydiv d (pymax data)
        else (pydiv d (pymin data)).map (fun q => -q)) =
      (fun d => if d > 0 then pydiv d (pymax data)
        else (pydiv d (0 : ℚ)).map (fun q => -q)) from by rw [hmn]]
    exact normalize_mapM_error (pymax data) data
      ⟨pymin data, pymin_mem hne, by rw [hmn]; norm_num⟩ hmx_pos

theorem C6_normalize_bipolar_amended_witness :
    normalize_bipolar [-2, 0, 1] = Except.ok [-1, 0, 1] ∧
    normalize_bipolar [3, 3] = Except.ok [0, 0] := by
  constructor
  · have h := (C6_normalize_bipolar_amended [-2, 0, 1] (by simp)).2.1
      (by decide) (by decide)
    rw [h.1]
    norm_num [pymin, pymax]
  · have h := (C6_normalize_bipolar_amended [3, 3] (by simp)).1 (by decide)
    rw [h]
    rfl

theorem find_gap_loop_spec_fuel (δ : ℤ) (hδ : 0 < δ) (symbol : String)
    (date : ℤ) (c : ℚ) (sts : ℤ) :
    ∀ (fuel : ℕ) (start nts : ℤ), (sts - nts).toNat ≤ fuel →
      nts = start + δ → start < sts →
      ∃ m : ℕ,
        (find_gap_loop δ hδ symbol date c sts start nts).1 =
          (List.range m).map (fun j =>
            ⟨symbol, date + start + j * δ, c, c, c, c, 0⟩) ∧
        (find_gap_loop δ hδ symbol date c sts start nts).2.1 =
          start + m * δ ∧
        (find_gap_loop δ hδ symbol date c sts start nts).2.2 =
          start + m * δ + δ ∧
        start + m * δ < sts ∧ sts ≤ start + m * δ + δ := by
  intro fuel
  induction fuel with
  | zero =>
    intro start nts hfuel h1 h2
    have hstop : ¬ sts > nts := by omega
    rw [find_gap_loop, dif_neg hstop]
    refine ⟨0, by simp, by simp, ?_, ?_, ?_⟩ <;> simp <;> omega
  | succ f ih =>
    intro start nts hfuel h1 h2
    subst h1
    by_cases hgt : sts > start + δ
    · rcases ih (start + δ) (start + δ + δ) (by omega) rfl (by omega) with
        ⟨m, hm1, hm2, hm3, hm4, hm5⟩
      refine ⟨m + 1, ?_, ?_, ?_, ?_, ?_⟩
      · rw [find_gap_loop, dif_pos hgt]
        simp only []
        rw [hm1]
        rw [List.range_succ_eq_map, List.map_cons, List.map_map]
        congr 1
        · simp
        · apply List.map_congr_left
          intro j _
          simp only [Function.comp_apply]
          congr 1
          push_cast
          ring
      · rw [find_gap_loop, dif_pos hgt]
        simp only []
        rw [hm2]
        push_cast
        ring
      · rw [find_gap_loop, dif_pos hgt]
        simp only []
        rw [hm3]
        push_cast
        ring
      · push_cast
        push_cast at hm4
        linarith
      · push_cast
        push_cast at hm5
        linarith
    · rw [find_gap_loop, dif_neg hgt]
      refine ⟨0, by simp, by simp, ?_, ?_, ?_⟩ <;> simp <;> omega

theorem find_gap_loop_spec (δ : ℤ) (hδ : 0 < δ) (symbol : String)
    (date : ℤ) (c : ℚ) (sts start nts : ℤ) (h1 : nts = start + δ)
    (h2 : start < sts) :
    ∃ m : ℕ,
      (find_gap_loop δ hδ symbol date c sts start nts).1 =
        (List.range m).map (fun j =>
          ⟨symbol, date + start + j * δ, c, c, c, c, 0⟩) ∧
      (find_gap_loop δ hδ symbol date c sts start nts).2.1 =
        start + m * δ ∧
      (find_gap_loop δ hδ symbol date c sts start nts).2.2 =
        start + m * δ + δ ∧
      start + m * δ < sts ∧ sts ≤ start + m * δ + δ :=
  find_gap_loop_spec_fuel δ hδ symbol date c sts (sts - nts).toNat start nts
    (le_refl _) h1 h2

theorem getD_map_range (f : ℕ → Bar) (m j : ℕ) (h : j < m) :
    ((List.range m).map f).getD j default = f j := by
  rw [List.getD_eq_getElem _ _ (by simpa using h)]
  simp

theorem filler_carry_append_left (res l' : List Bar) (k : ℕ) (hk1 : 1 ≤ k)
    (hk : k < res.length) (h : filler_carry res k) :
    filler_carry (res ++ l') k := by
  unfold filler_carry at *
  rw [List.getD_append _ _ _ _ hk, List.getD_append _ _ _ _ (by omega)]
  exact h

theorem filler_carry_flush_fillers (res : List Bar) (fb : Bar) (m : ℕ)
    (symbol : String) (c : ℚ) (stamps : ℕ → ℤ) (hfb : fb.close = c) :
    ∀ k, res.length + 1 ≤ k → k < res.length + 1 + m →
      filler_carry (res ++ fb :: (List.range m).map
        (fun j => ⟨symbol, stamps j, c, c, c, c, 0⟩)) k := by
  intro k h1 h2
  obtain ⟨j, rfl⟩ : ∃ j, k = res.length + 1 + j := ⟨k - (res.length + 1), by omega⟩
  have hj : j < m := by omega
  unfold filler_carry
  have hcur : (res ++ fb :: (List.range m).map
      (fun j => (⟨symbol, stamps j, c, c, c, c, 0⟩ : Bar))).getD
        (res.length + 1 + j) default =
      ⟨symbol, stamps j, c, c, c, c, 0⟩ := by
    rw [List.getD_append_right _ _ _ _ (by omega),
      show res.length + 1 + j - res.length = j + 1 by omega,
      List.getD_cons_succ, getD_map_range _ _ _ hj]
  have hprevclose : ((res ++ fb :: (List.range m).map
      (fun j => (⟨symbol, stamps j, c, c, c, c, 0⟩ : Bar))).getD
        (res.length + 1 + j - 1) default).close = c := by
    rcases Nat.eq_zero_or_pos j with rfl | hjpos
    · rw [show res.length + 1 + 0 - 1 = res.length by omega,
        List.getD_append_right _ _ _ _ (by omega),
        show res.length - res.length = 0 by omega]
      simpa using hfb
    · rw [show res.length + 1 + j - 1 = res.length + 1 + (j - 1) by omega,
        List.getD_append_right _ _ _ _ (by omega),
        show res.length + 1 + (j - 1) - res.length = (j - 1) + 1 by omega,
        List.getD_cons_succ, getD_map_range _ _ _ (by omega)]
  rw [hcur, hprevclose]
  exact ⟨rfl, rfl, rfl, rfl, rfl⟩

theorem find_bars_loop_spec (δ : ℤ) (hδ : 0 < δ) (symbol : String)
    (date b0 : ℤ) (allT : List Trade) :
    ∀ (ts : List Trade) (st : FindBarsState) (res : List Bar)
      (lastOff : ℤ),
      ts.Pairwise (fun a b => trade_off a ≤ trade_off b) →
      (∀ t ∈ ts, lastOff ≤ trade_off t) →
      (∀ t ∈ ts, t ∈ allT) →
      st.nts = st.start + δ →
      st.start = b0 + res.length * δ →
      res.map Bar.timestamp =
        (List.range res.length).map (fun (k : ℕ) => date + b0 + (k : ℤ) * δ) →
      0 < st.ct →
      lastOff ≤ st.nts →
      (res.length = 0 → b0 ≤ lastOff) →
      (0 < res.length → st.start < lastOff) →
      (∃ t0 ∈ allT, trade_off t0 = lastOff) →
      (∀ k, 1 ≤ k → k < res.length →
        (∀ t ∈ allT, ¬ (b0 + k * δ < trade_off t ∧
          trade_off t ≤ b0 + (k + 1) * δ)) →
        filler_carry res k) →
      0 < (find_bars_loop δ hδ symbol date ts st res).length ∧
      res.length < (find_bars_loop δ hδ symbol date ts st res).length ∧
      (find_bars_loop δ hδ symbol date ts st res).map Bar.timestamp =
        (List.range (find_bars_loop δ hδ symbol date ts st res).length).map
          (fun (k : ℕ) => date + b0 + (k : ℤ) * δ) ∧
      lastOffAcc lastOff ts ≤
        b0 + (find_bars_loop δ hδ symbol date ts st res).length * δ ∧
      ((find_bars_loop δ hδ symbol date ts st res).length = 1 ∨
        b0 + (((find_bars_loop δ hδ symbol date ts st res).length : ℤ) - 1) *
            δ < lastOffAcc lastOff ts) ∧
      (∀ k, 1 ≤ k → k < (find_bars_loop δ hδ symbol date ts st res).length →
        (∀ t ∈ allT, ¬ (b0 + k * δ < trade_off t ∧
          trade_off t ≤ b0 + (k + 1) * δ)) →
        filler_carry (find_bars_loop δ hδ symbol date ts st res) k) := by
  intro ts
  induction ts with
  | nil =>
    intro st res lastOff _ _ _ hnts hstart hmap hct hle hres0 hrespos hlastT hQ
    simp only [find_bars_loop]
    rw [if_pos hct]
    have hlen : (res ++ [(⟨symbol, date + st.start, st.o, st.c, st.h, st.l,
        st.v⟩ : Bar)]).length = res.length + 1 := by simp
    rw [hlen]
    refine ⟨by omega, by omega, ?_, ?_, ?_, ?_⟩
    · rw [List.map_append, hmap, List.range_succ, List.map_append,
        List.map_cons]
      simp only [List.map_nil, List.map_cons]
      congr 2
      rw [hstart]
      ring
    · simp only [lastOffAcc, List.foldl_nil]
      push_cast
      have : st.nts = b0 + (res.length : ℤ) * δ + δ := by rw [hnts, hstart]
      linarith
    · rcases Nat.eq_zero_or_pos res.length with hz | hpos
      · left
        omega
      · right
        simp only [lastOffAcc, List.foldl_nil]
        push_cast
        have h1 := hrespos hpos
        rw [hstart] at h1
        have : ((res.length : ℤ) + 1) - 1 = (res.length : ℤ) := by ring
        rw [this]
        linarith
    · intro k hk1 hkn hempty
      rcases Nat.lt_or_ge k res.length with hlt | hge
      · exact filler_carry_append_left res _ k hk1 hlt
          (hQ k hk1 hlt hempty)
      · have hkeq : k = res.length := by omega
        rcases hlastT with ⟨t0, ht0, ht0off⟩
        exfalso
        apply hempty t0 ht0
        subst hkeq
        have hsp := hrespos (by omega)
        rw [hstart] at hsp
        rw [ht0off]
        have hnn : st.nts = b0 + (res.length : ℤ) * δ + δ := by
          rw [hnts, hstart]
        constructor
        · exact hsp
        · push_cast
          linarith
  | cons t rest ih =>
    intro st res lastOff hpw hge hsub hnts hstart hmap hct hle hres0 hrespos
      hlastT hQ
    have hpwc := List.pairwise_cons.mp hpw
    have hlt : lastOff ≤ trade_off t := hge t (List.mem_cons_self t rest)
    have htallT : t ∈ allT := hsub t (List.mem_cons_self t rest)
    have hAcc : lastOffAcc lastOff (t :: rest) =
        lastOffAcc (trade_off t) rest := rfl
    simp only [find_bars_loop]
    rw [show datetime_to_second_offset t.timestamp = trade_off t from rfl]
    by_cases hb : trade_off t ≤ st.nts
    · rw [if_pos hb]
      rw [hAcc]
      exact ih
        { st with
          o := if st.first then t.price else st.o
          l := if t.price <
              (if st.first then t.price else st.l) then t.price
            else (if st.first then t.price else st.l)
          h := if t.price >
              (if st.first then t.price else st.h) then t.price
            else (if st.first then t.price else st.h)
          c := t.price
          v := st.v + t.count
          ct := st.ct + 1
          first := false } res (trade_off t) hpwc.2 hpwc.1
        (fun x hx => hsub x (List.mem_cons_of_mem t hx)) hnts hstart hmap
        (by show 0 < st.ct + 1; omega) hb
        (fun h0 => le_trans (hres0 h0) hlt)
        (fun hp => lt_of_lt_of_le (hrespos hp) hlt) ⟨t, htallT, rfl⟩ hQ
    · rw [if_neg hb]
      push_neg at hb
      rcases find_gap_loop_spec δ hδ symbol date st.c (trade_off t) st.nts
        (st.nts + δ) rfl hb with ⟨m, hg1, hg2, hg3, hg4, hg5⟩
      rw [hAcc]
      have hflen : ((res ++ [(⟨symbol, date + st.start, st.o, st.c, st.h,
          st.l, st.v⟩ : Bar)]) ++ (find_gap_loop δ hδ symbol date st.c
            (trade_off t) st.nts (st.nts + δ)).1).length =
          res.length + 1 + m := by
        rw [hg1]
        simp
        omega
      have hnts' : st.nts = b0 + ((res.length : ℤ) + 1) * δ := by
        rw [hnts, hstart]
        ring
      have happ := ih
        { start := (find_gap_loop δ hδ symbol date st.c (trade_off t) st.nts
            (st.nts + δ)).2.1
          nts := (find_gap_loop δ hδ symbol date st.c (trade_off t) st.nts
            (st.nts + δ)).2.2
          o := t.price
          c := t.price
          l := t.price
          h := t.price
          v := t.count
          ct := 1
          first := st.first }
        ((res ++ [(⟨symbol, date + st.start, st.o, st.c, st.h, st.l,
          st.v⟩ : Bar)]) ++ (find_gap_loop δ hδ symbol date st.c
            (trade_off t) st.nts (st.nts + δ)).1)
        (trade_off t) hpwc.2 hpwc.1
        (fun x hx => hsub x (List.mem_cons_of_mem t hx))
        (by
          show (find_gap_loop δ hδ symbol date st.c (trade_off t) st.nts
            (st.nts + δ)).2.2 = (find_gap_loop δ hδ symbol date st.c
              (trade_off t) st.nts (st.nts + δ)).2.1 + δ
          rw [hg2, hg3])
        (by
          show (find_gap_loop δ hδ symbol date st.c (trade_off t) st.nts
            (st.nts + δ)).2.1 = _
          rw [hg2, hflen, hnts']
          push_cast
          ring)
        (by
          rw [List.map_append, List.map_append, hmap, hflen, hg1,
            List.map_cons, List.map_nil, List.map_map,
            show res.length + 1 + m = (res.length + 1) + m from rfl,
            List.range_add, List.map_append, List.range_succ,
            List.map_append, List.map_map]
          congr 1
          · congr 1
            simp only [List.map_cons, List.map_nil]
            rw [show date + st.start = date + b0 + (res.length : ℤ) * δ from
              by rw [hstart]; ring]
          · apply List.map_congr_left
            intro j _
            simp only [Function.comp_apply]
            rw [hnts']
            push_cast
            ring)
        Nat.one_pos
        (by
          show trade_off t ≤ (find_gap_loop δ hδ symbol date st.c
            (trade_off t) st.nts (st.nts + δ)).2.2
          rw [hg3]
          exact hg5)
        (by
          intro h0
          rw [hflen] at h0
          omega)
        (by
          intro _
          show (find_gap_loop δ hδ symbol date st.c (trade_off t) st.nts
            (st.nts + δ)).2.1 < trade_off t
          rw [hg2]
          exact hg4)
        ⟨t, htallT, rfl⟩
        (by
          intro k hk1 hkn hempty
          rw [hflen] at hkn
          rcases Nat.lt_or_ge k res.length with hklt | hkge
          · rw [List.append_assoc]
            exact filler_carry_append_left res _ k hk1 hklt
              (hQ k hk1 hklt hempty)
          · rcases Nat.eq_or_lt_of_le hkge with hkeq | hkgt
            · exfalso
              rcases hlastT with ⟨t0, ht0, ht0off⟩
              apply hempty t0 ht0
              rw [ht0off]
              rw [hkeq] at hstart hnts'
              constructor
              · have := hrespos (by omega)
                rw [hstart] at this
                exact this
              · have := hle
                rw [hnts'] at this
                exact this
            · rw [List.append_assoc, List.singleton_append, hg1]
              exact filler_carry_flush_fillers res _ m symbol st.c
                (fun j => date + st.nts + (j : ℤ) * δ) rfl k (by omega)
                (by omega))
      rcases happ with ⟨h1, h2, h3, h4, h5, h6⟩
      refine ⟨h1, by omega, h3, h4, h5, h6⟩

/-- The `lastOffAcc` fold returns the second offset of the last trade of a
non-empty list, regardless of the accumulator it starts from. -/
theorem lastOffAcc_getLast :
    ∀ (l : List Trade) (h : l ≠ []) (x : ℤ),
      lastOffAcc x l = trade_off (l.getLast h) := by
  intro l
  induction l with
  | nil => intro h; exact absurd rfl h
  | cons t ts ih =>
    intro h x
    cases ts with
    | nil => rfl
    | cons u us =>
      rw [List.getLast_cons (List.cons_ne_nil u us)]
      exact ih (List.cons_ne_nil u us) (trade_off t)

/-- In a list that is pairwise ordered by second offset, every element's
offset is at most the offset of the last element. -/
theorem pairwise_off_getLast :
    ∀ (l : List Trade) (h : l ≠ []),
      l.Pairwise (fun a b => trade_off a ≤ trade_off b) →
      ∀ a ∈ l, trade_off a ≤ trade_off (l.getLast h) := by
  intro l
  induction l with
  | nil => intro h; exact absurd rfl h
  | cons t ts ih =>
    intro h hpw a ha
    rcases List.pairwise_cons.mp hpw with ⟨hhead, htail⟩
    cases ts with
    | nil =>
      rcases List.mem_cons.mp ha with rfl | ha'
      · exact le_refl _
      · exact absurd ha' (List.not_mem_nil a)
    | cons u us =>
      rw [List.getLast_cons (List.cons_ne_nil u us)]
      rcases List.mem_cons.mp ha with rfl | ha'
      · exact hhead _ (List.getLast_mem (List.cons_ne_nil u us))
      · exact ih (List.cons_ne_nil u us) htail a ha'

/-- C9: for every non-empty list of trades all falling on one calendar day
`D` and every bucket width `δ > 0`, `find_bars` returns a non-empty list of
bars timestamped at consecutive bucket starts `b0, b0+δ, ...` anchored at the
bucket `b0` of the earliest trade's second offset; the offset of the last
trade lies within the final bucket under end-inclusive assignment (it is at
most `b0 + n*δ`, and exceeds `b0 + (n-1)*δ` unless only one bar is produced);
every bucket strictly between the first and the last that contains no trade
offset (end-inclusively) yields a filler bar carrying the previous close in
all four prices with zero volume; and for the empty trade list `find_bars`
returns the empty list. -/
theorem C9_find_bars_amended (δ : ℤ) (hδ : 0 < δ) (D : ℤ)
    (trades : List Trade) (hne : trades ≠ [])
    (hday : ∀ t ∈ trades, t.timestamp / 86400 = D) :
    find_bars δ hδ [] = [] ∧
    ∃ (b0 : ℤ) (tf tl : Trade),
      tf ∈ trades ∧
      tl ∈ trades ∧
      (∀ t ∈ trades, trade_off tf ≤ trade_off t) ∧
      (∀ t ∈ trades, trade_off t ≤ trade_off tl) ∧
      b0 = nearest_bucket (trade_off tf) δ ∧
      0 < (find_bars δ hδ trades).length ∧
      (find_bars δ hδ trades).map Bar.timestamp =
        (List.range (find_bars δ hδ trades).length).map
          (fun (k : ℕ) => 86400 * D + b0 + (k : ℤ) * δ) ∧
      trade_off tl ≤ b0 + ((find_bars δ hδ trades).length : ℤ) * δ ∧
      ((find_bars δ hδ trades).length = 1 ∨
        b0 + (((find_bars δ hδ trades).length : ℤ) - 1) * δ < trade_off tl) ∧
      (∀ k : ℕ, 1 ≤ k → k < (find_bars δ hδ trades).length →
        (∀ t ∈ trades, ¬ (b0 + (k : ℤ) * δ < trade_off t ∧
          trade_off t ≤ b0 + ((k : ℤ) + 1) * δ)) →
        filler_carry (find_bars δ hδ trades) k) := by
  refine ⟨rfl, ?_⟩
  obtain ⟨t0, trest, rfl⟩ : ∃ a l, trades = a :: l := by
    cases trades with
    | nil => exact absurd rfl hne
    | cons a l => exact ⟨a, l, rfl⟩
  haveI : IsTotal Trade (fun a b => a.timestamp ≤ b.timestamp) :=
    ⟨fun a b => Int.le_total a.timestamp b.timestamp⟩
  haveI : IsTrans Trade (fun a b => a.timestamp ≤ b.timestamp) :=
    ⟨fun _ _ _ h1 h2 => le_trans h1 h2⟩
  have hsorted := List.sorted_insertionSort
    (fun a b => a.timestamp ≤ b.timestamp) (t0 :: trest)
  have hperm := List.perm_insertionSort
    (fun a b => a.timestamp ≤ b.timestamp) (t0 :: trest)
  cases hs : List.insertionSort (fun a b => a.timestamp ≤ b.timestamp)
      (t0 :: trest) with
  | nil =>
    rw [hs] at hperm
    have := hperm.length_eq
    simp at this
  | cons tf rest' =>
    rw [hs] at hsorted hperm
    have hday' : ∀ t ∈ tf :: rest', t.timestamp / 86400 = D :=
      fun t ht => hday t (hperm.mem_iff.mp ht)
    have hoff : ∀ t ∈ tf :: rest', trade_off t = t.timestamp - 86400 * D := by
      intro t ht
      show t.timestamp % 86400 = _
      rw [Int.emod_def, hday' t ht]
    have hpwoff : (tf :: rest').Pairwise
        (fun a b => trade_off a ≤ trade_off b) := by
      refine List.Pairwise.imp_of_mem ?_ hsorted
      intro a b ha hb hab
      rw [hoff a ha, hoff b hb]
      omega
    have hmin : ∀ t ∈ tf :: rest', trade_off tf ≤ trade_off t := by
      intro t ht
      rcases List.mem_cons.mp ht with rfl | ht'
      · exact le_refl _
      · exact (List.pairwise_cons.mp hpwoff).1 t ht'
    have htfmem : tf ∈ t0 :: trest :=
      hperm.mem_iff.mp (List.mem_cons_self tf rest')
    have hm0 : 0 ≤ trade_off tf % δ := Int.emod_nonneg _ (ne_of_gt hδ)
    have hm1 : trade_off tf % δ < δ := Int.emod_lt_of_pos _ hδ
    have hb : trade_off tf ≤ trade_off tf - trade_off tf % δ + δ := by omega
    have hdate : truncate_datetime tf.timestamp = 86400 * D := by
      show tf.timestamp - tf.timestamp % 86400 = _
      rw [Int.emod_def, hday' tf (List.mem_cons_self tf rest')]
      ring
    have hstep : find_bars δ hδ (t0 :: trest) =
        find_bars_loop δ hδ tf.symbol (truncate_datetime tf.timestamp) rest'
          { start := trade_off tf - trade_off tf % δ
            nts := trade_off tf - trade_off tf % δ + δ
            o := tf.price
            c := tf.price
            l := if tf.price < tf.price then tf.price else tf.price
            h := if tf.price > tf.price then tf.price else tf.price
            v := 0 + tf.count
            ct := 1
            first := false } [] := by
      simp only [find_bars]
      rw [hs]
      simp only [List.headD_cons]
      simp only [find_bars_loop]
      rw [show datetime_to_second_offset tf.timestamp = trade_off tf from rfl]
      rw [if_pos hb]
      rfl
    rw [hstep, hdate]
    obtain ⟨h1, h2, h3, h4, h5, h6⟩ :=
      find_bars_loop_spec δ hδ tf.symbol (86400 * D)
        (trade_off tf - trade_off tf % δ) (t0 :: trest) rest'
        { start := trade_off tf - trade_off tf % δ
          nts := trade_off tf - trade_off tf % δ + δ
          o := tf.price
          c := tf.price
          l := if tf.price < tf.price then tf.price else tf.price
          h := if tf.price > tf.price then tf.price else tf.price
          v := 0 + tf.count
          ct := 1
          first := false } [] (trade_off tf)
        (List.pairwise_cons.mp hpwoff).2
        (List.pairwise_cons.mp hpwoff).1
        (fun x hx => hperm.mem_iff.mp (List.mem_cons_of_mem tf hx))
        rfl
        (by
          show trade_off tf - trade_off tf % δ =
            trade_off tf - trade_off tf % δ +
              ((([] : List Bar).length : ℤ)) * δ
          simp)
        rfl
        Nat.one_pos
        (by
          show trade_off tf ≤ trade_off tf - trade_off tf % δ + δ
          omega)
        (fun _ => by omega)
        (fun hpos => absurd hpos (by simp))
        ⟨tf, htfmem, rfl⟩
        (fun k hk1 hk2 _ => absurd hk2 (by simp))
    have hacc : lastOffAcc (trade_off tf) rest' =
        trade_off ((tf :: rest').getLast (List.cons_ne_nil tf rest')) :=
      lastOffAcc_getLast (tf :: rest') (List.cons_ne_nil tf rest') 0
    rw [hacc] at h4 h5
    refine ⟨trade_off tf - trade_off tf % δ, tf,
      (tf :: rest').getLast (List.cons_ne_nil tf rest'),
      htfmem,
      hperm.mem_iff.mp (List.getLast_mem (List.cons_ne_nil tf rest')),
      fun t ht => hmin t (hperm.mem_iff.mpr ht),
      fun t ht => pairwise_off_getLast (tf :: rest')
        (List.cons_ne_nil tf rest') hpwoff t (hperm.mem_iff.mpr ht),
      rfl, h1, h3, h4, h5, h6⟩

/-- Witness for the amended C9 theorem: a single trade at timestamp 30s on
day 0, bucket width 60s, satisfies the hypotheses, and the conclusion holds
at that input. -/
theorem C9_find_bars_amended_witness :
    (0 : ℤ) < 60 ∧
    ([(⟨"A", 30, "X", 5, 10⟩ : Trade)] ≠ []) ∧
    (∀ t ∈ [(⟨"A", 30, "X", 5, 10⟩ : Trade)], t.timestamp / 86400 = 0) ∧
    (find_bars 60 (by norm_num) [] = [] ∧
    ∃ (b0 : ℤ) (tf tl : Trade),
      tf ∈ [(⟨"A", 30, "X", 5, 10⟩ : Trade)] ∧
      tl ∈ [(⟨"A", 30, "X", 5, 10⟩ : Trade)] ∧
      (∀ t ∈ [(⟨"A", 30, "X", 5, 10⟩ : Trade)],
        trade_off tf ≤ trade_off t) ∧
      (∀ t ∈ [(⟨"A", 30, "X", 5, 10⟩ : Trade)],
        trade_off t ≤ trade_off tl) ∧
      b0 = nearest_bucket (trade_off tf) 60 ∧
      0 < (find_bars 60 (by norm_num)
        [(⟨"A", 30, "X", 5, 10⟩ : Trade)]).length ∧
      (find_bars 60 (by norm_num)
          [(⟨"A", 30, "X", 5, 10⟩ : Trade)]).map Bar.timestamp =
        (List.range (find_bars 60 (by norm_num)
            [(⟨"A", 30, "X", 5, 10⟩ : Trade)]).length).map
          (fun (k : ℕ) => 86400 * 0 + b0 + (k : ℤ) * 60) ∧
      trade_off tl ≤ b0 + ((find_bars 60 (by norm_num)
        [(⟨"A", 30, "X", 5, 10⟩ : Trade)]).length : ℤ) * 60 ∧
      ((find_bars 60 (by norm_num)
          [(⟨"A", 30, "X", 5, 10⟩ : Trade)]).length = 1 ∨
        b0 + (((find_bars 60 (by norm_num)
            [(⟨"A", 30, "X", 5, 10⟩ : Trade)]).length : ℤ) - 1) * 60 <
          trade_off tl) ∧
      (∀ k : ℕ, 1 ≤ k →
        k < (find_bars 60 (by norm_num)
          [(⟨"A", 30, "X", 5, 10⟩ : Trade)]).length →
        (∀ t ∈ [(⟨"A", 30, "X", 5, 10⟩ : Trade)],
          ¬ (b0 + (k : ℤ) * 60 < trade_off t ∧
            trade_off t ≤ b0 + ((k : ℤ) + 1) * 60)) →
        filler_carry (find_bars 60 (by norm_num)
          [(⟨"A", 30, "X", 5, 10⟩ : Trade)]) k)) :=
  ⟨by norm_num, by decide, by decide,
    C9_find_bars_amended 60 (by norm_num) 0
      [(⟨"A", 30, "X", 5, 10⟩ : Trade)] (by decide) (by decide)⟩
